import Mathlib

/-!
# Verification of the ai-diff-review reviewer orchestration engine

This file gives a shallow embedding, in Lean 4, of the core logic of the
`ai-diff-review` repository (TypeScript): the fallback-order computation,
the verdict aggregator, the subagent-output parser/validator, the review
orchestrator's rotation bookkeeping and report writing, and the pre-commit
lock/failure-counter state machine.  Each definition is translated from the
corresponding TypeScript source (`src/review.ts`, `src/precommit.ts`);
filesystem and process effects are made explicit as state records and
event lists.  The theorems at the end of the file settle the stated
properties of these functions.
-/

set_option maxRecDepth 10000

namespace AiDiffReview

/-! ## Reviewer identities and verdict data model

From `src/review.ts`:
`export type ReviewerName = 'codex' | 'copilot' | 'claude';`
and the `ParsedReview` / `ReviewRunnerResult` shapes used throughout
(`status: 'pass' | 'fail'`, `summary: string`, `findings: Finding[]`).
-/

/-- The closed set of backend names (`ReviewerName` in `src/review.ts`). -/
inductive ReviewerName where
  | codex
  | copilot
  | claude
deriving DecidableEq, Repr

/-- The string value of each `ReviewerName` literal in the TypeScript union. -/
def reviewerNameStr : ReviewerName → String
  | .codex => "codex"
  | .copilot => "copilot"
  | .claude => "claude"

/-- Display label used by `runReview`'s `labels` record and `evaluateResults`. -/
def reviewerLabel : ReviewerName → String
  | .codex => "Codex"
  | .copilot => "Copilot"
  | .claude => "Claude"

/-- `const DEFAULT_FALLBACK_ORDER: ReadonlyArray<ReviewerName> = ['codex', 'copilot', 'claude'];` -/
def DEFAULT_FALLBACK_ORDER : List ReviewerName := [.codex, .copilot, .claude]

/-- A single finding inside a verdict (the `Finding` shape of the repository's
`REVIEW_SCHEMA`: `severity`, `title`, `details` strings, nullable `file`
string and nullable integer `line`). -/
structure Finding where
  severity : String
  title : String
  details : String
  file : Option String
  line : Option Int
deriving DecidableEq, Repr

/-- `status: 'pass' | 'fail'` of a parsed review. -/
inductive ReviewStatus where
  | pass
  | fail
deriving DecidableEq, Repr

/-- The `ParsedReview` record (`{ status, summary, findings }`). -/
structure ParsedReview where
  status : ReviewStatus
  summary : String
  findings : List Finding
deriving DecidableEq, Repr

/-- `ReviewRunnerResult`: `{ available: false }` or
`{ available: true, result: ParsedReview }`. -/
inductive ReviewRunnerResult where
  | unavailable
  | available (result : ParsedReview)
deriving DecidableEq, Repr

/-- `runner.available` as a Boolean. -/
def ReviewRunnerResult.isAvailable : ReviewRunnerResult → Bool
  | .unavailable => false
  | .available _ => true

/-! ## buildFallbackOrder (src/review.ts lines 21-28)

```ts
export function buildFallbackOrder(lastUnavailable: string | null): ReviewerName[] {
  if (!lastUnavailable || !DEFAULT_FALLBACK_ORDER.includes(lastUnavailable as ReviewerName)) {
    return [...DEFAULT_FALLBACK_ORDER];
  }
  const order = DEFAULT_FALLBACK_ORDER.filter((r) => r !== lastUnavailable);
  order.push(lastUnavailable as ReviewerName);
  return order;
}
```
`lastUnavailable` is a nullable string; `!lastUnavailable` is true for
`null` and for the empty string.  Membership and the filter compare the
string against the reviewer-name string literals. -/
def buildFallbackOrder (lastUnavailable : Option String) : List ReviewerName :=
  match lastUnavailable with
  | none => DEFAULT_FALLBACK_ORDER
  | some s =>
    if s = "" then DEFAULT_FALLBACK_ORDER
    else
      match DEFAULT_FALLBACK_ORDER.find? (fun r => reviewerNameStr r = s) with
      | none => DEFAULT_FALLBACK_ORDER
      | some r => (DEFAULT_FALLBACK_ORDER.filter (fun x => reviewerNameStr x ≠ s)) ++ [r]

/-! ## evaluateResults (src/review.ts lines 535-563)

```ts
export function evaluateResults(claude, codex, copilot) {
  if (!claude.available && !codex.available && !copilot.available) {
    return { pass: false, reason: 'All reviewers (Claude, Codex, Copilot) are unavailable. At least one AI review is required.' };
  }
  const runners = [['Claude', claude], ['Codex', codex], ['Copilot', copilot]];
  const failures = [];
  for (const [name, runner] of runners)
    if (runner.available && runner.result.status === 'fail') failures.push(name);
  if (failures.length > 0)
    return { pass: false, reason: `AI review rejected by: $\x7bfailures.join(', ')\x7d.` };
  const withFindings = [];
  for (const [name, runner] of runners)
    if (runner.available && runner.result.findings.length > 0) withFindings.push(name);
  if (withFindings.length > 0)
    return { pass: false, reason: `AI review has unresolved findings from: $\x7bwithFindings.join(', ')\x7d. Pass requires zero findings.` };
  const passed = [];
  for (const [name, runner] of runners)
    if (runner.available) passed.push(name);
  return { pass: true, reason: `AI review approved by: $\x7bpassed.join(', ')\x7d.` };
}
```
-/

/-- The aggregate verdict `{ pass, reason }`. -/
structure Verdict where
  pass : Bool
  reason : String
deriving DecidableEq, Repr

/-- `runner.available && runner.result.status === 'fail'`. -/
def runnerFailed : ReviewRunnerResult → Bool
  | .available r => r.status = ReviewStatus.fail
  | .unavailable => false

/-- `runner.available && runner.result.findings.length > 0`. -/
def runnerHasFindings : ReviewRunnerResult → Bool
  | .available r => r.findings.length > 0
  | .unavailable => false

/-- The `runners` array of `evaluateResults`, in source order. -/
def evalRunners (claude codex copilot : ReviewRunnerResult) :
    List (String × ReviewRunnerResult) :=
  [("Claude", claude), ("Codex", codex), ("Copilot", copilot)]

/-- Names collected by one of the `for` loops of `evaluateResults`:
the labels of the runners satisfying `p`, in the `runners` array order. -/
def collectNames (p : ReviewRunnerResult → Bool)
    (runners : List (String × ReviewRunnerResult)) : List String :=
  (runners.filter (fun nr => p nr.2)).map (fun nr => nr.1)

/-- `evaluateResults` from `src/review.ts`. -/
def evaluateResults (claude codex copilot : ReviewRunnerResult) : Verdict :=
  if ¬claude.isAvailable ∧ ¬codex.isAvailable ∧ ¬copilot.isAvailable then
    { pass := false
      reason := "All reviewers (Claude, Codex, Copilot) are unavailable. At least one AI review is required." }
  else
    let runners := evalRunners claude codex copilot
    let failures := collectNames runnerFailed runners
    if failures.length > 0 then
      { pass := false
        reason := "AI review rejected by: " ++ String.intercalate ", " failures ++ "." }
    else
      let withFindings := collectNames runnerHasFindings runners
      if withFindings.length > 0 then
        { pass := false
          reason := "AI review has unresolved findings from: "
            ++ String.intercalate ", " withFindings ++ ". Pass requires zero findings." }
      else
        let passed := collectNames ReviewRunnerResult.isAvailable runners
        { pass := true
          reason := "AI review approved by: " ++ String.intercalate ", " passed ++ "." }

/-! ## JavaScript string/number primitives used by the sources

`String.prototype.trim`, `Number.parseInt(s, 10)` and string falsiness are
modelled here on Lean strings (lists of characters).  JavaScript's `trim`
removes leading and trailing whitespace; `parseInt` with radix 10 skips
leading whitespace, accepts an optional sign, reads the longest leading
digit run and returns `NaN` (modelled as `none`) when no digit was read. -/

/-- Whitespace as recognized by JavaScript `trim` / by the JSON grammar's
`\s` class, restricted to the four JSON whitespace characters plus the
other common ASCII space forms.  All inputs in this development only ever
use space, tab, newline and carriage return. -/
def isJsWs (c : Char) : Bool :=
  c = ' ' ∨ c = '\t' ∨ c = '\n' ∨ c = '\r' ∨ c = '\x0b' ∨ c = '\x0c'

/-- `s.trim()` on the character list. -/
def jsTrimList (cs : List Char) : List Char :=
  ((cs.dropWhile isJsWs).reverse.dropWhile isJsWs).reverse

/-- `s.trim()`. -/
def jsTrim (s : String) : String :=
  ⟨jsTrimList s.data⟩

/-- ASCII decimal digit test. -/
def isDigitChar (c : Char) : Bool :=
  48 ≤ c.toNat ∧ c.toNat ≤ 57

/-- Numeric value of a decimal digit character. -/
def digitVal (c : Char) : Nat :=
  c.toNat - '0'.toNat

/-- Reads the longest leading run of decimal digits, accumulating their
value; returns the value together with the unread suffix. -/
def readDigits : Nat → List Char → Nat × List Char
  | acc, [] => (acc, [])
  | acc, c :: cs =>
    if isDigitChar c then readDigits (acc * 10 + digitVal c) (c :: cs).tail
    else (acc, c :: cs)

/-- `Number.parseInt(s, 10)` restricted to its result value: `none` models
`NaN`.  Leading whitespace is skipped, one optional `+`/`-` sign is read,
then the longest leading digit run; anything after the digits is ignored.
If no digit follows the (optional) sign the result is `NaN`. -/
def jsParseInt10 (s : String) : Option Int :=
  match s.data.dropWhile isJsWs with
  | [] => none
  | c :: cs =>
    if c = '-' then
      match cs with
      | [] => none
      | d :: _ => if isDigitChar d then some (-(readDigits 0 cs).1) else none
    else if c = '+' then
      match cs with
      | [] => none
      | d :: _ => if isDigitChar d then some ((readDigits 0 cs).1 : Int) else none
    else if isDigitChar c then some ((readDigits 0 (c :: cs)).1 : Int)
    else none

/-! ## The pre-commit lock/failure-counter state machine (src/precommit.ts)

The filesystem is modelled as the contents of the three control files the
function touches: the lock marker, the failure counter and the last
report (`none` = the file does not exist).  `console.log`/`console.error`
output is collected, in emission order, into one list of lines.  The call
to `runReviewFn` is modelled by a Boolean verdict `reviewPass` plus a
count of how many times the function was invoked.  The three control-file
paths (produced by `getGitPath`, an external git call) are parameters so
the printed messages can quote them exactly. -/

/-- The persisted control files the pre-commit flow reads and writes. -/
structure PreCommitState where
  lockFile : Option String
  failCountFile : Option String
  reportFile : Option String
deriving DecidableEq, Repr

/-- Result of one `runPreCommit` call: exit code, final filesystem state,
number of `runReviewFn` invocations and printed lines. -/
structure PreCommitOutcome where
  code : Nat
  state : PreCommitState
  reviewCalls : Nat
  logs : List String
deriving DecidableEq, Repr

/-- `readCount` from `src/precommit.ts`:
```ts
function readCount(path: string): number {
  if (!existsSync(path)) return 0;
  const value = Number.parseInt(readFileSync(path, 'utf8').trim(), 10);
  return Number.isNaN(value) ? 0 : value;
}
``` -/
def readCount (failCountFile : Option String) : Int :=
  match failCountFile with
  | none => 0
  | some content => (jsParseInt10 (jsTrim content)).getD 0

/-- `printLastReport` from `src/precommit.ts`: the lines it prints. -/
def printLastReport (reportPath : String) (reportFile : Option String) : List String :=
  ("Last report: " ++ reportPath) ::
    match reportFile with
    | some content => ["Review output:", content]
    | none => ["Review output: report file not found."]

/-- The unlock instruction line printed both by the lock short-circuit and
by the hard-lock branch: ``To unlock: rm -f "<lockPath>" "<failCountPath>"``. -/
def unlockLine (lockPath failCountPath : String) : String :=
  "To unlock: rm -f \"" ++ lockPath ++ "\" \"" ++ failCountPath ++ "\""

/-- `failCount >= failLimit` where `failLimit` is
`Number.parseInt(process.env.AI_REVIEW_FAIL_LIMIT || '10', 10)`; a `NaN`
limit (`none`) makes the comparison false. -/
def lockReached (failLimit : Option Int) (failCount : Int) : Bool :=
  match failLimit with
  | some l => failCount ≥ l
  | none => false

/-- Rendering of the `failLimit` number inside the soft-block message
(`NaN` prints as `"NaN"` in JavaScript). -/
def failLimitStr (failLimit : Option Int) : String :=
  match failLimit with
  | some l => toString l
  | none => "NaN"

/-- `runPreCommit` from `src/precommit.ts`:
```ts
export function runPreCommit(cwd, options, deps): number {
  const runReviewFn = deps.runReviewFn ?? runReview;
  if (isCiEnvironment()) { console.log('Skip AI review in CI.'); return 0; }
  const failCountPath = resolve(cwd, getGitPath('ai-review-fail-count'));
  const lockPath = resolve(cwd, getGitPath('ai-review.lock'));
  const reportPath = resolve(cwd, process.env.AI_REVIEW_REPORT_PATH || getGitPath('ai-review-last.json'));
  const failLimit = Number.parseInt(process.env.AI_REVIEW_FAIL_LIMIT || '10', 10);
  if (existsSync(lockPath)) {
    console.error('AI hook lock is active. Commits are blocked until manual unlock.');
    console.error(`To unlock: rm -f ...`);
    printLastReport(reportPath);
    return 1;
  }
  const review = runReviewFn(cwd, { verbose });
  if (review.pass) { rmSync(failCountPath, { force: true }); return 0; }
  const failCount = readCount(failCountPath) + 1;
  writeFileSync(failCountPath, String(failCount), 'utf8');
  if (failCount >= failLimit) {
    writeFileSync(lockPath, `locked_after=$\x7bfailCount\x7d\n`, 'utf8');
    console.error(`AI hook rejected $\x7bfailCount\x7d commits in a row. Hard lock is now active.`);
    console.error(`To unlock: rm -f ...`);
  } else {
    console.error('AI hook rejected the commit. Commit blocked.');
    console.error(`Consecutive AI-hook failures: $\x7bfailCount\x7d (lock at $\x7bfailLimit\x7d).`);
  }
  printLastReport(reportPath);
  return 1;
}
```
`reviewPass` is the `pass` field of the value `runReviewFn` produced, as in
the repository's own pre-commit test, where `runReviewFn` returns the
verdict record directly. -/
def runPreCommit (st : PreCommitState) (isCi : Bool) (failLimit : Option Int)
    (reviewPass : Bool) (lockPath failCountPath reportPath : String) :
    PreCommitOutcome :=
  if isCi then
    { code := 0, state := st, reviewCalls := 0, logs := ["Skip AI review in CI."] }
  else if st.lockFile.isSome then
    { code := 1, state := st, reviewCalls := 0
      logs := ["AI hook lock is active. Commits are blocked until manual unlock.",
               unlockLine lockPath failCountPath]
              ++ printLastReport reportPath st.reportFile }
  else if reviewPass then
    { code := 0, state := { st with failCountFile := none }, reviewCalls := 1, logs := [] }
  else
    let failCount := readCount st.failCountFile + 1
    let written : PreCommitState := { st with failCountFile := some (toString failCount) }
    if lockReached failLimit failCount then
      { code := 1
        state := { written with
          lockFile := some ("locked_after=" ++ toString failCount ++ "\n") }
        reviewCalls := 1
        logs := ["AI hook rejected " ++ toString failCount
                   ++ " commits in a row. Hard lock is now active.",
                 unlockLine lockPath failCountPath]
                ++ printLastReport reportPath st.reportFile }
    else
      { code := 1, state := written, reviewCalls := 1
        logs := ["AI hook rejected the commit. Commit blocked.",
                 "Consecutive AI-hook failures: " ++ toString failCount
                   ++ " (lock at " ++ failLimitStr failLimit ++ ")."]
                ++ printLastReport reportPath st.reportFile }

/-! ## The review orchestrator (runReview, src/review.ts lines 582-698)

`runReview` is modelled as a pure function of: the staged diff text, the
optional forced reviewer, the rotation state previously persisted by
`readLastUnavailable` (the trimmed file content, `none` when the file does
not exist or is empty), and one `ReviewRunnerResult` per backend (the
outcome each adapter would produce if invoked; adapters are invoked at
most once per run).  Its effects are made explicit: the list of report
writes performed via `writeReport`, the rotation-state file action
(`writeLastUnavailable` / `clearLastUnavailable` / neither) and the list
of adapters invoked, in invocation order. -/

/-- The persisted report: each backend maps to its verdict or to the
`{ status: 'unavailable' }` marker (modelled as `none`). -/
structure ReviewReport where
  claude : Option ParsedReview
  codex : Option ParsedReview
  copilot : Option ParsedReview
deriving DecidableEq, Repr

/-- What `runReview` did to the persisted rotation-state file. -/
inductive RotationAction where
  | wrote (r : ReviewerName)
  | cleared
  | noop
deriving DecidableEq, Repr

/-- Everything observable about one `runReview` run. -/
structure RunReviewOutcome where
  pass : Bool
  reason : String
  reportWrites : List ReviewReport
  rotation : RotationAction
  calls : List ReviewerName
deriving DecidableEq, Repr

/-- The default-mode fallback loop of `runReview`:
```ts
let firstUnavailable: ReviewerName | null = null;
for (let i = 0; i < fallbackOrder.length; i++) {
  const name = fallbackOrder[i];
  results[name] = await runners[name](prompt, verbose);
  if (results[name].available) break;
  if (!firstUnavailable) firstUnavailable = name;
}
```
Returns the `(name, result)` pairs actually produced, in invocation
order, together with the first backend observed unavailable (if any). -/
def walkFallback (adapters : ReviewerName → ReviewRunnerResult) :
    List ReviewerName → List (ReviewerName × ReviewRunnerResult) × Option ReviewerName
  | [] => ([], none)
  | n :: rest =>
    let r := adapters n
    if r.isAvailable then ([(n, r)], none)
    else ((n, r) :: (walkFallback adapters rest).1, some n)

/-- The per-backend result after the loop: backends never invoked keep
their initial `{ available: false }` value. -/
def walkResult (walked : List (ReviewerName × ReviewRunnerResult)) (n : ReviewerName) :
    ReviewRunnerResult :=
  match walked.find? (fun p => p.1 = n) with
  | some p => p.2
  | none => .unavailable

/-- The report record built at the end of `runReview`:
`claude.available ? claude.result : { status: 'unavailable' }` etc. -/
def buildReport (claude codex copilot : ReviewRunnerResult) : ReviewReport :=
  { claude := match claude with | .available r => some r | .unavailable => none
    codex := match codex with | .available r => some r | .unavailable => none
    copilot := match copilot with | .available r => some r | .unavailable => none }

/-- `runReview` from `src/review.ts`.  The early return on an empty diff
(`if (!diff) return { pass: true, ..., reason: 'No staged changes.' }`)
performs no report write, invokes no adapter and touches no rotation
state.  In forced-reviewer mode exactly the forced adapter runs and
rotation bookkeeping is skipped.  In default mode the fallback order is
computed from the persisted rotation state, the adapters are walked
sequentially until the first available one, and the rotation state is
written (first unavailable backend) or cleared (none unavailable).  In
every non-empty-diff path the report is then written exactly once and the
verdict is computed by `evaluateResults`. -/
def runReview (diff : String) (reviewer : Option ReviewerName)
    (lastUnavailable : Option String)
    (adapters : ReviewerName → ReviewRunnerResult) : RunReviewOutcome :=
  if diff = "" then
    { pass := true, reason := "No staged changes."
      reportWrites := [], rotation := .noop, calls := [] }
  else
    match reviewer with
    | some forced =>
      let claude := if forced = .claude then adapters .claude else .unavailable
      let codex := if forced = .codex then adapters .codex else .unavailable
      let copilot := if forced = .copilot then adapters .copilot else .unavailable
      let verdict := evaluateResults claude codex copilot
      { pass := verdict.pass, reason := verdict.reason
        reportWrites := [buildReport claude codex copilot]
        rotation := .noop, calls := [forced] }
    | none =>
      let order := buildFallbackOrder lastUnavailable
      let walked := walkFallback adapters order
      let claude := walkResult walked.1 .claude
      let codex := walkResult walked.1 .codex
      let copilot := walkResult walked.1 .copilot
      let verdict := evaluateResults claude codex copilot
      { pass := verdict.pass, reason := verdict.reason
        reportWrites := [buildReport claude codex copilot]
        rotation := match walked.2 with
          | some n => .wrote n
          | none => .cleared
        calls := walked.1.map (fun p => p.1) }

/-! ## A model of JSON values, `JSON.stringify` and `JSON.parse`

`parseSubagentOutput` relies on the ECMAScript platform functions
`JSON.parse` and `JSON.stringify`.  They are modelled here on an explicit
JSON value type, restricted to the fragment the review verdicts use:
numbers are integers (the schema's only numbers are integer line numbers).
The serializer mirrors `JSON.stringify` with no indentation: compact
separators, object keys in insertion order, and the standard string
escapes (`\"`, `\\`, `\b`, `\f`, `\n`, `\r`, `\t`, and `\u00XX` with
lowercase hex for other control characters).  The parser is a
recursive-descent reader of the JSON grammar over that fragment: optional
whitespace between tokens, strings with the standard escapes (raw control
characters are rejected, `\uXXXX` with a surrogate code unit is rejected),
and integer numerals. -/

/-- JSON values (integer-number fragment). -/
inductive Json where
  | null
  | bool (b : Bool)
  | num (n : Int)
  | str (s : String)
  | arr (items : List Json)
  | obj (fields : List (String × Json))

/-- Decimal digit character for a value below ten. -/
def decDigitChar (n : Nat) : Char :=
  Char.ofNat ('0'.toNat + n)

/-- Lowercase hexadecimal digit character for a value below sixteen. -/
def hexDigitChar (n : Nat) : Char :=
  if n < 10 then Char.ofNat ('0'.toNat + n) else Char.ofNat ('a'.toNat + (n - 10))

/-- Decimal digits of a natural number, most significant first. -/
def natChars (n : Nat) : List Char :=
  if _h : n < 10 then [decDigitChar n]
  else natChars (n / 10) ++ [decDigitChar (n % 10)]
decreasing_by exact Nat.div_lt_self (by omega) (by omega)

/-- Decimal rendering of an integer (as `JSON.stringify` renders it). -/
def intChars (n : Int) : List Char :=
  if n < 0 then '-' :: natChars n.natAbs else natChars n.toNat

/-- The escape `JSON.stringify` applies to one character inside a string. -/
def escapeChar (c : Char) : List Char :=
  if c = '"' then ['\\', '"']
  else if c = '\\' then ['\\', '\\']
  else if c = '\x08' then ['\\', 'b']
  else if c = '\x0c' then ['\\', 'f']
  else if c = '\n' then ['\\', 'n']
  else if c = '\r' then ['\\', 'r']
  else if c = '\t' then ['\\', 't']
  else if c.toNat < 0x20 then
    ['\\', 'u', '0', '0', hexDigitChar (c.toNat / 16), hexDigitChar (c.toNat % 16)]
  else [c]

/-- `JSON.stringify`'s escaping of a string body. -/
def escapeList : List Char → List Char
  | [] => []
  | c :: cs => escapeChar c ++ escapeList cs

/-- A serialized (quoted and escaped) JSON string. -/
def serStr (s : String) : List Char :=
  '"' :: escapeList s.data ++ ['"']

mutual

/-- `JSON.stringify(value)` (compact form) on the modelled fragment. -/
def serVal : Json → List Char
  | .null => 'n' :: ['u', 'l', 'l']
  | .bool true => 't' :: ['r', 'u', 'e']
  | .bool false => 'f' :: ['a', 'l', 's', 'e']
  | .num n => intChars n
  | .str s => serStr s
  | .arr items => '[' :: serItems items ++ [']']
  | .obj fields => '{' :: serFields fields ++ ['}']

/-- Comma-separated serialization of array items. -/
def serItems : List Json → List Char
  | [] => []
  | x :: rest =>
    serVal x ++ (match rest with | [] => [] | _ :: _ => ',' :: serItems rest)

/-- Comma-separated serialization of object members (`"key":value`). -/
def serFields : List (String × Json) → List Char
  | [] => []
  | (k, v) :: rest =>
    serStr k ++ ':' :: serVal v
      ++ (match rest with | [] => [] | _ :: _ => ',' :: serFields rest)

end

/-- `JSON.stringify` as a string-valued function. -/
def Json.serialize (j : Json) : String :=
  ⟨serVal j⟩

mutual

/-- Number of grammar productions needed to parse a value; used only to
bound the parser's fuel. -/
def jsize : Json → Nat
  | .arr items => 2 + jsizeItems items
  | .obj fields => 2 + jsizeFields fields
  | _ => 1

/-- Fuel bound for an item list. -/
def jsizeItems : List Json → Nat
  | [] => 0
  | x :: rest => 1 + jsize x + jsizeItems rest

/-- Fuel bound for a member list. -/
def jsizeFields : List (String × Json) → Nat
  | [] => 0
  | (_, v) :: rest => 1 + jsize v + jsizeFields rest

end

/-- JSON insignificant whitespace skipping. -/
def skipWs (cs : List Char) : List Char :=
  cs.dropWhile isJsWs

/-- Value of one hexadecimal digit character, if it is one. -/
def hexVal? (c : Char) : Option Nat :=
  if 48 ≤ c.toNat ∧ c.toNat ≤ 57 then some (c.toNat - '0'.toNat)
  else if 97 ≤ c.toNat ∧ c.toNat ≤ 102 then some (c.toNat - 'a'.toNat + 10)
  else if 65 ≤ c.toNat ∧ c.toNat ≤ 70 then some (c.toNat - 'A'.toNat + 10)
  else none

/-- Reads a JSON string body (the part after the opening quote) up to and
including the closing quote, decoding escapes.  Raw control characters
and `\uXXXX` surrogate code units are rejected. -/
def parseStrChars : List Char → Option (List Char × List Char)
  | [] => none
  | c :: rest =>
    if c = '"' then some ([], rest)
    else if c = '\\' then
      match rest with
      | [] => none
      | e :: rest2 =>
        if e = '"' then (parseStrChars rest2).map (fun p => ('"' :: p.1, p.2))
        else if e = '\\' then (parseStrChars rest2).map (fun p => ('\\' :: p.1, p.2))
        else if e = '/' then (parseStrChars rest2).map (fun p => ('/' :: p.1, p.2))
        else if e = 'b' then (parseStrChars rest2).map (fun p => ('\x08' :: p.1, p.2))
        else if e = 'f' then (parseStrChars rest2).map (fun p => ('\x0c' :: p.1, p.2))
        else if e = 'n' then (parseStrChars rest2).map (fun p => ('\n' :: p.1, p.2))
        else if e = 'r' then (parseStrChars rest2).map (fun p => ('\r' :: p.1, p.2))
        else if e = 't' then (parseStrChars rest2).map (fun p => ('\t' :: p.1, p.2))
        else if e = 'u' then
          match rest2 with
          | h1 :: h2 :: h3 :: h4 :: rest3 =>
            match hexVal? h1, hexVal? h2, hexVal? h3, hexVal? h4 with
            | some a, some b, some c2, some d =>
              if 0xD800 ≤ a * 4096 + b * 256 + c2 * 16 + d ∧
                  a * 4096 + b * 256 + c2 * 16 + d ≤ 0xDFFF then none
              else
                (parseStrChars rest3).map
                  (fun p => (Char.ofNat (a * 4096 + b * 256 + c2 * 16 + d) :: p.1, p.2))
            | _, _, _, _ => none
          | _ => none
        else none
    else if c.toNat < 0x20 then none
    else (parseStrChars rest).map (fun p => (c :: p.1, p.2))

/-- Reads a JSON integer numeral (optional minus sign, digit run). -/
def parseJsonNumber : List Char → Option (Int × List Char)
  | [] => none
  | c :: cs =>
    if c = '-' then
      match cs with
      | [] => none
      | d :: _ =>
        if isDigitChar d then
          some (-((readDigits 0 cs).1 : Int), (readDigits 0 cs).2)
        else none
    else if isDigitChar c then
      some (((readDigits 0 (c :: cs)).1 : Int), (readDigits 0 (c :: cs)).2)
    else none

mutual

/-- Recursive-descent JSON value reader.  `fuel` bounds the recursion
depth; `jsonParseList` supplies more fuel than any input can need. -/
def parseValue : Nat → List Char → Option (Json × List Char)
  | 0, _ => none
  | fuel + 1, cs =>
    match skipWs cs with
    | [] => none
    | c :: rest =>
      if c = 'n' then
        match rest with
        | 'u' :: 'l' :: 'l' :: rest2 => some (.null, rest2)
        | _ => none
      else if c = 't' then
        match rest with
        | 'r' :: 'u' :: 'e' :: rest2 => some (.bool true, rest2)
        | _ => none
      else if c = 'f' then
        match rest with
        | 'a' :: 'l' :: 's' :: 'e' :: rest2 => some (.bool false, rest2)
        | _ => none
      else if c = '"' then
        (parseStrChars rest).map (fun p => (.str ⟨p.1⟩, p.2))
      else if c = '[' then
        (parseArrayItems fuel (skipWs rest)).map (fun p => (.arr p.1, p.2))
      else if c = '{' then
        (parseObjectItems fuel (skipWs rest)).map (fun p => (.obj p.1, p.2))
      else
        (parseJsonNumber (c :: rest)).map (fun p => (.num p.1, p.2))

/-- Reads the items of an array, positioned (whitespace already skipped)
just after `[` or after a separating comma followed by at least one item.
A closing bracket directly after a comma is rejected, as in JSON. -/
def parseArrayItems : Nat → List Char → Option (List Json × List Char)
  | 0, _ => none
  | fuel + 1, cs =>
    match cs with
    | [] => none
    | c :: rest =>
      if c = ']' then some ([], rest)
      else
        match parseValue fuel (c :: rest) with
        | none => none
        | some (v, rest1) =>
          match skipWs rest1 with
          | [] => none
          | c2 :: rest2 =>
            if c2 = ']' then some ([v], rest2)
            else if c2 = ',' then
              match skipWs rest2 with
              | [] => none
              | c3 :: rest3 =>
                if c3 = ']' then none
                else
                  match parseArrayItems fuel (c3 :: rest3) with
                  | none => none
                  | some (vs, rest4) => some (v :: vs, rest4)
            else none

/-- Reads the members of an object, positioned (whitespace already
skipped) just after `{` or after a separating comma followed by at least
one member.  A closing brace directly after a comma is rejected. -/
def parseObjectItems : Nat → List Char → Option (List (String × Json) × List Char)
  | 0, _ => none
  | fuel + 1, cs =>
    match cs with
    | [] => none
    | c :: rest =>
      if c = '}' then some ([], rest)
      else if c = '"' then
        match parseStrChars rest with
        | none => none
        | some (key, rest1) =>
          match skipWs rest1 with
          | [] => none
          | c2 :: rest2 =>
            if c2 = ':' then
              match parseValue fuel rest2 with
              | none => none
              | some (v, rest3) =>
                match skipWs rest3 with
                | [] => none
                | c3 :: rest4 =>
                  if c3 = '}' then some ([(⟨key⟩, v)], rest4)
                  else if c3 = ',' then
                    match skipWs rest4 with
                    | [] => none
                    | c4 :: rest5 =>
                      if c4 = '"' then
                        match parseObjectItems fuel (c4 :: rest5) with
                        | none => none
                        | some (fields, rest6) => some ((⟨key⟩, v) :: fields, rest6)
                      else none
                  else none
            else none
      else none

end

/-- `JSON.parse` on a character list: reads one value and requires only
whitespace to remain. -/
def jsonParseList (cs : List Char) : Option Json :=
  match parseValue (2 * cs.length + 2) cs with
  | some (j, rest) => if skipWs rest = [] then some j else none
  | none => none

/-- `JSON.parse` on a string. -/
def jsonParse (s : String) : Option Json :=
  jsonParseList s.data

/-! ## parseSubagentOutput and validateParsedReview (src/review.ts 240-276)

```ts
function validateParsedReview(parsed: unknown): ParsedReview {
  if (!parsed || typeof parsed !== 'object')
    throw new Error('Subagent output is not a JSON object.');
  if (!['pass', 'fail'].includes((parsed as ParsedReview).status))
    throw new Error('Subagent output has an invalid status.');
  if (!Array.isArray((parsed as ParsedReview).findings))
    throw new Error('Subagent output has an invalid findings list.');
  return parsed as ParsedReview;
}

export function parseSubagentOutput(raw: string): ParsedReview {
  const trimmed = String(raw || '').trim();
  if (!trimmed) throw new Error('Subagent returned an empty response.');
  let cleaned = trimmed.replace(/^```(?:json)?\s*‍/i, '').replace(/\s*```$/i, '');
  try { return validateParsedReview(JSON.parse(cleaned)); } catch \x7b\x7d
  const jsonStart = cleaned.indexOf('{');
  const jsonEnd = cleaned.lastIndexOf('}');
  if (jsonStart !== -1 && jsonEnd > jsonStart)
    cleaned = cleaned.slice(jsonStart, jsonEnd + 1);
  return validateParsedReview(JSON.parse(cleaned));
}
```
The validator receives the `JSON.parse` result and returns it unchanged (a
type cast in the source), so it is modelled as `Json → Except String Json`.
JavaScript property access `(parsed).status` yields the last binding of a
duplicated key (as `JSON.parse` builds objects) and `undefined` on arrays;
`typeof parsed === 'object'` holds for both objects and arrays, and
`!parsed` rules out `null`. -/

/-- JavaScript property read on a parsed JSON value: `undefined` (`none`)
unless the value is an object with the key; with duplicate keys the last
binding wins, as `JSON.parse` assigns fields in order. -/
def jsGetField : Json → String → Option Json
  | .obj fields, key => (fields.reverse.find? (fun f => f.1 = key)).map (fun f => f.2)
  | _, _ => none

/-- `parsed && typeof parsed === 'object'`: true exactly for (non-null)
objects and arrays. -/
def isJsObjectLike : Json → Bool
  | .obj _ => true
  | .arr _ => true
  | _ => false

/-- Does `['pass','fail'].includes(status)` hold for the `status` field? -/
def statusFieldOk (j : Json) : Bool :=
  match jsGetField j "status" with
  | some (.str s) => s = "pass" ∨ s = "fail"
  | _ => false

/-- Is the `findings` field an array (`Array.isArray`)? -/
def findingsFieldOk (j : Json) : Bool :=
  match jsGetField j "findings" with
  | some (.arr _) => true
  | _ => false

/-- `validateParsedReview` from `src/review.ts`. -/
def validateParsedReview (j : Json) : Except String Json :=
  if ¬isJsObjectLike j then .error "Subagent output is not a JSON object."
  else if ¬statusFieldOk j then .error "Subagent output has an invalid status."
  else if ¬findingsFieldOk j then .error "Subagent output has an invalid findings list."
  else .ok j

/-- `trimmed.replace(/^(three backticks)(?:json)?\s*‍/i, '')`: drops one
leading fence marker, an optional case-insensitive `json` tag and the
whitespace after them. -/
def stripFenceOpen (cs : List Char) : List Char :=
  match cs with
  | '`' :: '`' :: '`' :: rest =>
    let rest2 :=
      match rest with
      | c1 :: c2 :: c3 :: c4 :: r =>
        if c1.toLower = 'j' ∧ c2.toLower = 's' ∧ c3.toLower = 'o' ∧ c4.toLower = 'n'
        then r else rest
      | _ => rest
    rest2.dropWhile isJsWs
  | _ => cs

/-- `…​.replace(/\s*(three backticks)$/i, '')`: drops one trailing fence
marker and the whitespace before it. -/
def stripFenceClose (cs : List Char) : List Char :=
  match cs.reverse with
  | '`' :: '`' :: '`' :: rest => (rest.dropWhile isJsWs).reverse
  | _ => cs

/-- `cleaned.indexOf('{')`. -/
def firstOpenIdx? (cs : List Char) : Option Nat :=
  cs.findIdx? (fun c => c = '{')

/-- `cleaned.lastIndexOf('}')`. -/
def lastCloseIdx? (cs : List Char) : Option Nat :=
  (cs.reverse.findIdx? (fun c => c = '}')).map (fun i => cs.length - 1 - i)

/-- The brace-extraction step: slice from the first `{` to the last `}`
when both exist in that order, else leave the text unchanged. -/
def extractBraced (cs : List Char) : List Char :=
  match firstOpenIdx? cs, lastCloseIdx? cs with
  | some s, some e => if e > s then (cs.drop s).take (e + 1 - s) else cs
  | _, _ => cs

/-- The second parse attempt of `parseSubagentOutput`: brace extraction
followed by `JSON.parse` and validation.  A `JSON.parse` failure is a
thrown `SyntaxError`; its message is not modelled beyond a marker. -/
def extractAttempt (cleaned : List Char) : Except String Json :=
  match jsonParseList (extractBraced cleaned) with
  | some j => validateParsedReview j
  | none => .error "SyntaxError"

/-- `parseSubagentOutput` from `src/review.ts`; `.ok` carries the parsed
and validated verdict object, `.error` the thrown message. -/
def parseSubagentOutput (raw : String) : Except String Json :=
  let trimmed := jsTrim raw
  if trimmed = "" then .error "Subagent returned an empty response."
  else
    let cleaned := stripFenceClose (stripFenceOpen trimmed.data)
    match jsonParseList cleaned with
    | some j =>
      match validateParsedReview j with
      | .ok v => .ok v
      | .error _ => extractAttempt cleaned
    | none => extractAttempt cleaned

/-! ## Verdict serialization (the round-trip source side)

A well-formed verdict value, rendered to JSON the way `JSON.stringify`
renders the review objects the backends produce (keys in the
`REVIEW_SCHEMA` order: `status`, `summary`, `findings`; finding keys
`severity`, `title`, `details`, `file`, `line`, with `null` for absent
file/line). -/

/-- The status literal. -/
def statusStr : ReviewStatus → String
  | .pass => "pass"
  | .fail => "fail"

/-- A nullable string field. -/
def optStrJson : Option String → Json
  | some s => .str s
  | none => .null

/-- A nullable integer field. -/
def optIntJson : Option Int → Json
  | some n => .num n
  | none => .null

/-- The JSON object of one finding. -/
def findingToJson (f : Finding) : Json :=
  .obj [("severity", .str f.severity), ("title", .str f.title),
        ("details", .str f.details), ("file", optStrJson f.file),
        ("line", optIntJson f.line)]

/-- The JSON object of a verdict. -/
def reviewToJson (v : ParsedReview) : Json :=
  .obj [("status", .str (statusStr v.status)), ("summary", .str v.summary),
        ("findings", .arr (v.findings.map findingToJson))]

/-- `JSON.stringify` of a verdict value. -/
def serializeReview (v : ParsedReview) : String :=
  Json.serialize (reviewToJson v)

/-- The next character (if any) is not a decimal digit: the condition
under which a serialized numeral followed by this text reads back
unchanged. -/
def notDigitStart (cs : List Char) : Prop :=
  ∀ d, cs.head? = some d → isDigitChar d = false

/-- All characters of the list are JSON whitespace. -/
def allWs (cs : List Char) : Prop :=
  ∀ c ∈ cs, isJsWs c = true

/-! ## Theorems -/

/-- A failing runner is available. -/
theorem runnerFailed_available {r : ReviewRunnerResult} (h : runnerFailed r = true) :
    r.isAvailable = true := by
  cases r <;> simp_all [runnerFailed, ReviewRunnerResult.isAvailable]

/-- A runner with findings is available. -/
theorem runnerHasFindings_available {r : ReviewRunnerResult} (h : runnerHasFindings r = true) :
    r.isAvailable = true := by
  cases r <;> simp_all [runnerHasFindings, ReviewRunnerResult.isAvailable]

/-- The second component of a member of the runners array is one of the
three inputs. -/
theorem mem_evalRunners {c x p : ReviewRunnerResult} {nr : String × ReviewRunnerResult}
    (h : nr ∈ evalRunners c x p) : nr.2 = c ∨ nr.2 = x ∨ nr.2 = p := by
  simp only [evalRunners, List.mem_cons, List.not_mem_nil, or_false] at h
  rcases h with h | h | h <;> simp [h]

/-- `collectNames` is empty when no runner satisfies the predicate. -/
theorem collectNames_eq_nil {q : ReviewRunnerResult → Bool}
    {runners : List (String × ReviewRunnerResult)}
    (h : ∀ nr ∈ runners, ¬q nr.2) : collectNames q runners = [] := by
  simp only [collectNames, List.map_eq_nil_iff]
  exact List.filter_eq_nil_iff.mpr h

/-- `collectNames` is nonempty when some runner satisfies the predicate. -/
theorem collectNames_length_pos {q : ReviewRunnerResult → Bool}
    {runners : List (String × ReviewRunnerResult)}
    (h : ∃ nr ∈ runners, q nr.2) : (collectNames q runners).length > 0 := by
  rcases h with ⟨nr, hmem, hq⟩
  have : nr.1 ∈ collectNames q runners := by
    simp only [collectNames, List.mem_map]
    exact ⟨nr, List.mem_filter.mpr ⟨hmem, hq⟩, rfl⟩
  refine List.length_pos.mpr (fun he => ?_)
  rw [he] at this
  exact absurd this (List.not_mem_nil _)

/-- The all-unavailable guard fails when some runner is available. -/
theorem not_all_unavailable {c x p : ReviewRunnerResult}
    (h : ∃ nr ∈ evalRunners c x p, nr.2.isAvailable = true) :
    ¬(¬c.isAvailable = true ∧ ¬x.isAvailable = true ∧ ¬p.isAvailable = true) := by
  rcases h with ⟨nr, hmem, ha⟩
  rintro ⟨hc, hx, hp⟩
  rcases mem_evalRunners hmem with he | he | he <;> rw [he] at ha
  · exact hc ha
  · exact hx ha
  · exact hp ha

/-- C1: For every triple of reviewer results (Claude, Codex, Copilot),
`evaluateResults` applies the aggregation rules in order with first match
winning: all three unavailable gives `pass = false` with the reason naming
all backends as unavailable; otherwise any available `fail` gives
`pass = false` with the reason listing every such backend; otherwise any
available result with findings (even with status `pass`) gives
`pass = false` with the reason listing every such backend; otherwise
`pass = true` with the reason listing every available backend. -/
theorem C1_evaluateResults_aggregation (c x p : ReviewRunnerResult) :
    ((¬c.isAvailable ∧ ¬x.isAvailable ∧ ¬p.isAvailable) →
      evaluateResults c x p =
        { pass := false
          reason := "All reviewers (Claude, Codex, Copilot) are unavailable. At least one AI review is required." }) ∧
    ((∃ nr ∈ evalRunners c x p, runnerFailed nr.2) →
      evaluateResults c x p =
        { pass := false
          reason := "AI review rejected by: "
            ++ String.intercalate ", " (collectNames runnerFailed (evalRunners c x p)) ++ "." }) ∧
    ((∀ nr ∈ evalRunners c x p, ¬runnerFailed nr.2) →
      (∃ nr ∈ evalRunners c x p, runnerHasFindings nr.2) →
      evaluateResults c x p =
        { pass := false
          reason := "AI review has unresolved findings from: "
            ++ String.intercalate ", " (collectNames runnerHasFindings (evalRunners c x p))
            ++ ". Pass requires zero findings." }) ∧
    ((∀ nr ∈ evalRunners c x p, ¬runnerFailed nr.2) →
      (∀ nr ∈ evalRunners c x p, ¬runnerHasFindings nr.2) →
      (∃ nr ∈ evalRunners c x p, nr.2.isAvailable) →
      evaluateResults c x p =
        { pass := true
          reason := "AI review approved by: "
            ++ String.intercalate ", "
                (collectNames ReviewRunnerResult.isAvailable (evalRunners c x p)) ++ "." }) := by
  refine ⟨?_, ?_, ?_, ?_⟩
  · intro h
    rcases h with ⟨hc, hx, hp⟩
    simp only [evaluateResults, if_pos (And.intro hc (And.intro hx hp))]
  · intro h
    have hav := not_all_unavailable (c := c) (x := x) (p := p)
      (by rcases h with ⟨nr, hmem, hfail⟩; exact ⟨nr, hmem, runnerFailed_available hfail⟩)
    have hfailures := collectNames_length_pos h
    simp only [evaluateResults, if_neg hav, if_pos hfailures]
  · intro hnofail hfind
    have hav := not_all_unavailable (c := c) (x := x) (p := p)
      (by rcases hfind with ⟨nr, hmem, hf⟩; exact ⟨nr, hmem, runnerHasFindings_available hf⟩)
    have hnf : ¬(collectNames runnerFailed (evalRunners c x p)).length > 0 := by
      rw [collectNames_eq_nil hnofail]
      simp
    have hwf := collectNames_length_pos hfind
    simp only [evaluateResults, if_neg hav, if_neg hnf, if_pos hwf]
  · intro hnofail hnofind hav
    have hav2 := not_all_unavailable hav
    have hnf : ¬(collectNames runnerFailed (evalRunners c x p)).length > 0 := by
      rw [collectNames_eq_nil hnofail]
      simp
    have hnw : ¬(collectNames runnerHasFindings (evalRunners c x p)).length > 0 := by
      rw [collectNames_eq_nil hnofind]
      simp
    simp only [evaluateResults, if_neg hav2, if_neg hnf, if_neg hnw]

/-- Witness for C1 at a concrete triple: Claude unavailable, Codex passing
clean, Copilot passing but with one finding; the findings rule fires. -/
theorem C1_evaluateResults_aggregation_witness :
    evaluateResults .unavailable
        (.available { status := .pass, summary := "No issues", findings := [] })
        (.available
          { status := .pass, summary := "Needs fixes",
            findings := [{ severity := "low", title := "Nit", details := "y",
                           file := some "src/file.ts", line := some 2 }] }) =
      { pass := false
        reason := "AI review has unresolved findings from: Copilot. Pass requires zero findings." } := by
  have h := (C1_evaluateResults_aggregation .unavailable
    (.available { status := .pass, summary := "No issues", findings := [] })
    (.available
      { status := .pass, summary := "Needs fixes",
        findings := [{ severity := "low", title := "Nit", details := "y",
                       file := some "src/file.ts", line := some 2 }] })).2.2.1
  refine (h ?_ ?_).trans (by decide)
  · decide
  · decide

/-- C4: `buildFallbackOrder` always returns each of the three known
backends exactly once (no duplicates); with no persisted value, an empty
value or a value naming no known backend it returns the canonical order
`codex, copilot, claude`; with a value naming a known backend, that
backend moves to the end while the relative order of the other two
(expressed as the canonical order filtered to them) is preserved. -/
theorem C4_buildFallbackOrder_rotation (lu : Option String) :
    (buildFallbackOrder lu).Nodup ∧
    (∀ r : ReviewerName, r ∈ buildFallbackOrder lu) ∧
    ((lu = none ∨ lu = some "" ∨ (∀ r : ReviewerName, lu ≠ some (reviewerNameStr r))) →
      buildFallbackOrder lu = [.codex, .copilot, .claude]) ∧
    (∀ r : ReviewerName, lu = some (reviewerNameStr r) →
      buildFallbackOrder lu =
        (DEFAULT_FALLBACK_ORDER.filter (fun x => x ≠ r)) ++ [r]) := by
  have horder :
      ((lu = none ∨ lu = some "" ∨ (∀ r : ReviewerName, lu ≠ some (reviewerNameStr r))) ∧
        buildFallbackOrder lu = [.codex, .copilot, .claude]) ∨
      ∃ r : ReviewerName, lu = some (reviewerNameStr r) ∧
        buildFallbackOrder lu = (DEFAULT_FALLBACK_ORDER.filter (fun x => x ≠ r)) ++ [r] := by
    rcases lu with _ | s
    · exact Or.inl ⟨Or.inl rfl, rfl⟩
    · by_cases he : s = ""
      · subst he
        exact Or.inl ⟨Or.inr (Or.inl rfl), by simp [buildFallbackOrder, DEFAULT_FALLBACK_ORDER]⟩
      · by_cases h1 : s = "codex"
        · subst h1
          refine Or.inr ⟨.codex, rfl, ?_⟩
          simp [buildFallbackOrder, DEFAULT_FALLBACK_ORDER, reviewerNameStr, List.find?,
            List.filter]
        · by_cases h2 : s = "copilot"
          · subst h2
            refine Or.inr ⟨.copilot, rfl, ?_⟩
            simp [buildFallbackOrder, DEFAULT_FALLBACK_ORDER, reviewerNameStr, List.find?,
              List.filter]
          · by_cases h3 : s = "claude"
            · subst h3
              refine Or.inr ⟨.claude, rfl, ?_⟩
              simp [buildFallbackOrder, DEFAULT_FALLBACK_ORDER, reviewerNameStr, List.find?,
                List.filter]
            · have hno : ∀ r : ReviewerName, (some s : Option String) ≠ some (reviewerNameStr r) := by
                intro r hr
                injection hr with hr2
                rcases r with _ | _ | _ <;> simp [reviewerNameStr] at hr2 <;>
                  first
                    | exact h1 hr2
                    | exact h2 hr2
                    | exact h3 hr2
              refine Or.inl ⟨Or.inr (Or.inr hno), ?_⟩
              simp only [buildFallbackOrder, if_neg he]
              have hfind : DEFAULT_FALLBACK_ORDER.find? (fun r => reviewerNameStr r = s)
                  = none := by
                rw [List.find?_eq_none]
                intro r _ hr
                simp only [decide_eq_true_eq] at hr
                exact hno r (by rw [hr])
              rw [hfind]
              rfl
  have hperm : ∀ r0 : ReviewerName,
      ((DEFAULT_FALLBACK_ORDER.filter (fun x => x ≠ r0)) ++ [r0]).Nodup ∧
      (∀ r : ReviewerName, r ∈ (DEFAULT_FALLBACK_ORDER.filter (fun x => x ≠ r0)) ++ [r0]) := by
    intro r0
    rcases r0 with _ | _ | _ <;>
      exact ⟨by decide, by intro r; rcases r with _ | _ | _ <;> decide⟩
  have hinj : ∀ r r' : ReviewerName, reviewerNameStr r = reviewerNameStr r' → r = r' := by
    intro r r'
    rcases r with _ | _ | _ <;> rcases r' with _ | _ | _ <;> simp [reviewerNameStr]
  refine ⟨?_, ?_, ?_, ?_⟩
  · rcases horder with ⟨_, h⟩ | ⟨r0, _, h⟩ <;> rw [h]
    · decide
    · exact (hperm r0).1
  · rcases horder with ⟨_, h⟩ | ⟨r0, _, h⟩ <;> rw [h]
    · intro r; rcases r with _ | _ | _ <;> decide
    · exact (hperm r0).2
  · intro hnone
    rcases horder with ⟨_, h⟩ | ⟨r0, hr0, _⟩
    · exact h
    · rcases hnone with h | h | h
      · rw [h] at hr0; exact absurd hr0 (by simp)
      · rw [h] at hr0
        injection hr0 with hr2
        rcases r0 with _ | _ | _ <;> simp [reviewerNameStr] at hr2
      · exact absurd hr0 (h r0)
  · intro r hr
    rcases horder with ⟨hcase, _⟩ | ⟨r0, hr0, h⟩
    · exfalso
      rcases hcase with h | h | h
      · rw [h] at hr; exact absurd hr (by simp)
      · rw [h] at hr
        injection hr with hr2
        rcases r with _ | _ | _ <;> simp [reviewerNameStr] at hr2
      · exact absurd hr (h r)
    · have : reviewerNameStr r = reviewerNameStr r0 := by
        rw [hr0] at hr
        injection hr with hr2
        exact hr2.symm
      rw [hinj r r0 this]
      exact h

/-- Witness for C4 at the persisted value `"codex"`: the order is the
canonical one with codex rotated to the end, and it covers all backends
without duplicates. -/
theorem C4_buildFallbackOrder_rotation_witness :
    buildFallbackOrder (some "codex") = [.copilot, .claude, .codex] ∧
    (buildFallbackOrder (some "codex")).Nodup := by
  have h := C4_buildFallbackOrder_rotation (some "codex")
  refine ⟨(h.2.2.2 .codex rfl).trans (by decide), h.1⟩

/-- C2: In a non-CI, non-locked pre-commit run with a configured limit
`T`: a passing review removes the failure-counter file and returns 0; a
failing review writes the counter incremented by one, returns 1, writes
the lock marker exactly when the new count reaches `T`, and otherwise
leaves the lock absent and reports the soft-block message with the
current count and limit. -/
theorem C2_runPreCommit_counter_lock (st : PreCommitState) (T : Int)
    (reviewPass : Bool) (lockPath failCountPath reportPath : String)
    (hlock : st.lockFile = none) :
    (reviewPass = true →
      runPreCommit st false (some T) reviewPass lockPath failCountPath reportPath =
        { code := 0, state := { st with failCountFile := none }, reviewCalls := 1,
          logs := [] }) ∧
    (reviewPass = false →
      (runPreCommit st false (some T) reviewPass lockPath failCountPath reportPath).code = 1 ∧
      (runPreCommit st false (some T) reviewPass lockPath failCountPath
          reportPath).state.failCountFile =
        some (toString (readCount st.failCountFile + 1)) ∧
      ((runPreCommit st false (some T) reviewPass lockPath failCountPath
          reportPath).state.lockFile ≠ none ↔ readCount st.failCountFile + 1 ≥ T) ∧
      (readCount st.failCountFile + 1 ≥ T →
        (runPreCommit st false (some T) reviewPass lockPath failCountPath
            reportPath).state.lockFile =
          some ("locked_after=" ++ toString (readCount st.failCountFile + 1) ++ "\n")) ∧
      (readCount st.failCountFile + 1 < T →
        (runPreCommit st false (some T) reviewPass lockPath failCountPath
            reportPath).state.lockFile = none ∧
        (runPreCommit st false (some T) reviewPass lockPath failCountPath
            reportPath).logs =
          ["AI hook rejected the commit. Commit blocked.",
           "Consecutive AI-hook failures: " ++ toString (readCount st.failCountFile + 1)
             ++ " (lock at " ++ toString T ++ ")."]
          ++ printLastReport reportPath st.reportFile)) := by
  constructor
  · rintro rfl
    simp [runPreCommit, hlock]
  · rintro rfl
    by_cases hr : readCount st.failCountFile + 1 ≥ T
    · have hreach : lockReached (some T) (readCount st.failCountFile + 1) = true := by
        simp [lockReached, hr]
      refine ⟨?_, ?_, ?_, ?_, ?_⟩ <;>
        simp [runPreCommit, hlock, hreach, failLimitStr] <;> omega
    · have hreach : lockReached (some T) (readCount st.failCountFile + 1) = false := by
        simp only [lockReached, decide_eq_false_iff_not]
        exact hr
      refine ⟨?_, ?_, ?_, ?_, ?_⟩ <;>
        simp [runPreCommit, hlock, hreach, failLimitStr] <;> omega

/-- Witness for C2: empty starting state, limit 10, failing review; the
counter file becomes `"1"`, no lock is written, exit code 1. -/
theorem C2_runPreCommit_counter_lock_witness :
    (runPreCommit { lockFile := none, failCountFile := none, reportFile := none }
        false (some 10) false "/g/ai-review.lock" "/g/ai-review-fail-count"
        "/g/ai-review-last.json").code = 1 ∧
    (runPreCommit { lockFile := none, failCountFile := none, reportFile := none }
        false (some 10) false "/g/ai-review.lock" "/g/ai-review-fail-count"
        "/g/ai-review-last.json").state.failCountFile = some "1" ∧
    (runPreCommit { lockFile := none, failCountFile := none, reportFile := none }
        false (some 10) false "/g/ai-review.lock" "/g/ai-review-fail-count"
        "/g/ai-review-last.json").state.lockFile = none := by
  have h := (C2_runPreCommit_counter_lock
    { lockFile := none, failCountFile := none, reportFile := none } 10 false
    "/g/ai-review.lock" "/g/ai-review-fail-count" "/g/ai-review-last.json" rfl).2 rfl
  refine ⟨h.1, ?_, (h.2.2.2.2 (by decide)).1⟩
  refine h.2.1.trans ?_
  decide

/-- C3: In a non-CI pre-commit run where the lock marker exists,
`runPreCommit` returns 1, never invokes the review function, prints the
lock message, the unlock instructions and the last persisted report, and
leaves all control files unchanged. -/
theorem C3_runPreCommit_locked_shortcircuit (st : PreCommitState) (failLimit : Option Int)
    (reviewPass : Bool) (lockPath failCountPath reportPath : String) (l : String)
    (hlock : st.lockFile = some l) :
    runPreCommit st false failLimit reviewPass lockPath failCountPath reportPath =
      { code := 1, state := st, reviewCalls := 0
        logs := ["AI hook lock is active. Commits are blocked until manual unlock.",
                 unlockLine lockPath failCountPath]
                ++ printLastReport reportPath st.reportFile } := by
  simp [runPreCommit, hlock]

/-- Witness for C3: a locked state with a persisted report; the run
refuses with code 1, zero review invocations, unchanged state. -/
theorem C3_runPreCommit_locked_shortcircuit_witness :
    runPreCommit
        { lockFile := some "locked_after=10\n", failCountFile := some "10",
          reportFile := some "{}" }
        false (some 10) true "/g/ai-review.lock" "/g/ai-review-fail-count"
        "/g/ai-review-last.json" =
      { code := 1
        state := { lockFile := some "locked_after=10\n", failCountFile := some "10",
                   reportFile := some "{}" }
        reviewCalls := 0
        logs := ["AI hook lock is active. Commits are blocked until manual unlock.",
                 "To unlock: rm -f \"/g/ai-review.lock\" \"/g/ai-review-fail-count\"",
                 "Last report: /g/ai-review-last.json", "Review output:", "{}"] } := by
  have h := C3_runPreCommit_locked_shortcircuit
    { lockFile := some "locked_after=10\n", failCountFile := some "10",
      reportFile := some "{}" }
    (some 10) true "/g/ai-review.lock" "/g/ai-review-fail-count" "/g/ai-review-last.json"
    "locked_after=10\n" rfl
  exact h.trans (by decide)

/-- C10: When the failure-counter file exists but its content does not
parse as an integer, `readCount` yields 0, so a failing non-CI, non-locked
run writes a counter of `"1"`: a corrupted counter silently restarts
progress toward the lock threshold. -/
theorem C10_runPreCommit_corrupt_counter (st : PreCommitState) (failLimit : Option Int)
    (lockPath failCountPath reportPath s : String)
    (hlock : st.lockFile = none) (hfile : st.failCountFile = some s)
    (hbad : jsParseInt10 (jsTrim s) = none) :
    readCount st.failCountFile = 0 ∧
    (runPreCommit st false failLimit false lockPath failCountPath
        reportPath).state.failCountFile = some "1" := by
  have hzero : readCount st.failCountFile = 0 := by
    rw [hfile]
    simp [readCount, hbad]
  refine ⟨hzero, ?_⟩
  simp only [runPreCommit, hlock, hzero, Option.isSome_none, Bool.false_eq_true, if_false]
  split <;> rfl

/-- Witness for C10 with counter content `"garbage"`. -/
theorem C10_runPreCommit_corrupt_counter_witness :
    readCount (some "garbage") = 0 ∧
    (runPreCommit { lockFile := none, failCountFile := some "garbage", reportFile := none }
        false (some 10) false "/g/l" "/g/c" "/g/r").state.failCountFile = some "1" := by
  exact C10_runPreCommit_corrupt_counter
    { lockFile := none, failCountFile := some "garbage", reportFile := none }
    (some 10) "/g/l" "/g/c" "/g/r" "garbage" rfl rfl (by decide)

/-- C5: In a default-mode (no forced reviewer) run with a non-empty diff,
if the first backend in the walk order is available the persisted rotation
state is cleared; if it is unavailable (it is then the first unavailable
backend of the walk), its identity is persisted as the new rotation
state — this covers both a later success and all backends unavailable. -/
theorem C5_runReview_rotation_persistence (diff : String) (lu : Option String)
    (adapters : ReviewerName → ReviewRunnerResult) (h : ReviewerName) (t : List ReviewerName)
    (hdiff : diff ≠ "") (horder : buildFallbackOrder lu = h :: t) :
    ((adapters h).isAvailable = true → (runReview diff none lu adapters).rotation = .cleared) ∧
    ((adapters h).isAvailable = false → (runReview diff none lu adapters).rotation = .wrote h) := by
  constructor
  · intro ha
    simp [runReview, hdiff, horder, walkFallback, ha]
  · intro ha
    simp [runReview, hdiff, horder, walkFallback, ha]

/-- Witness for C5: no persisted state, all adapters unavailable; codex is
tried first and is persisted as the new rotation state. -/
theorem C5_runReview_rotation_persistence_witness :
    (runReview "diff --cached" none none (fun _ => .unavailable)).rotation =
      .wrote .codex := by
  exact (C5_runReview_rotation_persistence "diff --cached" none (fun _ => .unavailable)
    .codex [.copilot, .claude] (by decide) rfl).2 rfl

/-- C8 counterexample: on the empty staged diff, `runReview` returns early
with `pass = true` and writes no report at all (zero report writes, no
adapter calls), so the claim that a report is written exactly once on
every run fails on this input. -/
theorem C8_counterexample_empty_diff_writes_no_report :
    (runReview "" none none (fun _ => .unavailable)).reportWrites = [] ∧
    (runReview "" none none (fun _ => .unavailable)).pass = true ∧
    (runReview "" none none (fun _ => .unavailable)).reason = "No staged changes." ∧
    (runReview "" none none (fun _ => .unavailable)).calls = [] := by
  refine ⟨rfl, rfl, rfl, rfl⟩

/-- C8 (amended): on every run whose diff is non-empty — any forced or
default reviewer mode, any rotation state, any adapter outcomes — the
report is written exactly once, independent of the pass/fail outcome. -/
theorem C8_runReview_report_written_once (diff : String) (reviewer : Option ReviewerName)
    (lu : Option String) (adapters : ReviewerName → ReviewRunnerResult)
    (hdiff : diff ≠ "") :
    (runReview diff reviewer lu adapters).reportWrites.length = 1 := by
  rcases reviewer with _ | forced
  · simp [runReview, hdiff]
  · simp [runReview, hdiff]

/-- Witness for C8 (amended) at a non-empty diff in default mode. -/
theorem C8_runReview_report_written_once_witness :
    (runReview "diff --cached" none none (fun _ => .unavailable)).reportWrites.length = 1 := by
  exact C8_runReview_report_written_once "diff --cached" none none (fun _ => .unavailable)
    (by decide)

/-! ### Character-class and whitespace lemmas -/

/-- `Char.ofNat` round trip for valid code points. -/
theorem toNat_ofNat_valid {n : Nat} (h : n.isValidChar) : (Char.ofNat n).toNat = n := by
  simp only [Char.ofNat, h, dif_pos, Char.ofNatAux, Char.toNat]
  rfl

/-- A decimal digit is not whitespace and not any JSON structural
character or value-start letter. -/
theorem isDigitChar_facts {c : Char} (h : isDigitChar c = true) :
    isJsWs c = false ∧ c ≠ 'n' ∧ c ≠ 't' ∧ c ≠ 'f' ∧ c ≠ '"' ∧ c ≠ '[' ∧ c ≠ '{' ∧
    c ≠ '-' ∧ c ≠ ']' ∧ c ≠ ',' ∧ c ≠ '}' := by
  have hb : 48 ≤ c.toNat ∧ c.toNat ≤ 57 := by
    simpa [isDigitChar] using h
  have hws : isJsWs c = false := by
    simp only [isJsWs, decide_eq_false_iff_not]
    rintro (rfl | rfl | rfl | rfl | rfl | rfl) <;> revert hb <;> decide
  refine ⟨hws, ?_, ?_, ?_, ?_, ?_, ?_, ?_, ?_, ?_, ?_⟩ <;>
    rintro rfl <;> revert hb <;> decide

/-- `skipWs` distributes over an append whose right part starts with a
non-whitespace character. -/
theorem skipWs_append_nonws (a : List Char) {c : Char} (r : List Char)
    (hc : isJsWs c = false) : skipWs (a ++ c :: r) = skipWs a ++ c :: r := by
  induction a with
  | nil => simp [skipWs, List.dropWhile_cons, hc]
  | cons x xs ih =>
    by_cases hx : isJsWs x <;>
      simp [skipWs, List.dropWhile_cons, hx] <;> simpa [skipWs] using ih

/-- `skipWs` is the identity on a list starting with non-whitespace. -/
theorem skipWs_cons_nonws {c : Char} (r : List Char) (hc : isJsWs c = false) :
    skipWs (c :: r) = c :: r := by
  simpa using skipWs_append_nonws [] r hc

/-- `skipWs` discards an all-whitespace prefix. -/
theorem skipWs_allWs_append {a : List Char} (h : allWs a) (b : List Char) :
    skipWs (a ++ b) = skipWs b := by
  induction a with
  | nil => simp
  | cons x xs ih =>
    have hx : isJsWs x = true := h x (by simp)
    have hxs : allWs xs := fun c hc => h c (by simp [hc])
    simp [skipWs, List.dropWhile_cons, hx]
    simpa [skipWs] using ih hxs

/-! ### Decimal numeral lemmas -/

/-- The digit character of a value below ten. -/
theorem decDigitChar_spec {n : Nat} (h : n < 10) :
    isDigitChar (decDigitChar n) = true ∧ digitVal (decDigitChar n) = n := by
  have h0 : '0'.toNat = 48 := rfl
  have hv : ('0'.toNat + n).isValidChar := Or.inl (by omega)
  have ht : (decDigitChar n).toNat = '0'.toNat + n := toNat_ofNat_valid hv
  constructor
  · simp only [isDigitChar, ht, decide_eq_true_eq]
    omega
  · simp only [digitVal, ht]
    omega

/-- Every character of a decimal rendering is a digit. -/
theorem natChars_all_digits (n : Nat) : ∀ c ∈ natChars n, isDigitChar c = true := by
  induction n using Nat.strong_induction_on with
  | _ n ih =>
    rw [natChars]
    split
    · intro c hc
      rw [List.mem_singleton] at hc
      subst hc
      exact (decDigitChar_spec (by omega)).1
    · intro c hc
      rcases List.mem_append.mp hc with h1 | h1
      · exact ih (n / 10) (Nat.div_lt_self (by omega) (by omega)) c h1
      · rw [List.mem_singleton] at h1
        subst h1
        exact (decDigitChar_spec (Nat.mod_lt _ (by omega))).1

/-- A decimal rendering is nonempty. -/
theorem natChars_ne_nil (n : Nat) : natChars n ≠ [] := by
  rw [natChars]
  split <;> simp

/-- `readDigits` consumes exactly a digit run followed by a non-digit. -/
theorem readDigits_append (ds : List Char) (hds : ∀ c ∈ ds, isDigitChar c = true)
    (rest : List Char) (hrest : notDigitStart rest) (acc : Nat) :
    readDigits acc (ds ++ rest) =
      (List.foldl (fun a c => a * 10 + digitVal c) acc ds, rest) := by
  induction ds generalizing acc with
  | nil =>
    cases rest with
    | nil => simp [readDigits]
    | cons c cs =>
      have hc : isDigitChar c = false := hrest c rfl
      simp [readDigits, hc]
  | cons c cs ih =>
    have hc : isDigitChar c = true := hds c (by simp)
    have hcs : ∀ x ∈ cs, isDigitChar x = true := fun x hx => hds x (by simp [hx])
    simp [readDigits, hc, ih hcs]

/-- Folding the digit accumulator over a decimal rendering. -/
theorem foldl_natChars (n : Nat) : ∀ acc : Nat,
    List.foldl (fun a c => a * 10 + digitVal c) acc (natChars n) =
      acc * 10 ^ (natChars n).length + n := by
  induction n using Nat.strong_induction_on with
  | _ n ih =>
    intro acc
    rw [natChars]
    split
    · rename_i h
      simp [List.foldl, (decDigitChar_spec h).2]
    · rename_i h
      rw [List.foldl_append, ih (n / 10) (Nat.div_lt_self (by omega) (by omega)),
        List.length_append]
      simp only [List.foldl, List.length_cons, List.length_nil,
        (decDigitChar_spec (Nat.mod_lt _ (by omega))).2]
      rw [pow_succ]
      have := Nat.div_add_mod n 10
      ring_nf
      omega

/-- Reading back a decimal rendering yields the original value. -/
theorem readDigits_natChars (n : Nat) (rest : List Char) (hrest : notDigitStart rest) :
    readDigits 0 (natChars n ++ rest) = (n, rest) := by
  rw [readDigits_append (natChars n) (natChars_all_digits n) rest hrest 0,
    foldl_natChars n 0]
  simp

/-- Reading back a serialized integer yields the original value. -/
theorem parseJsonNumber_consume (n : Int) (rest : List Char) (hrest : notDigitStart rest) :
    parseJsonNumber (intChars n ++ rest) = some (n, rest) := by
  by_cases hn : n < 0
  · rw [intChars, if_pos hn]
    rcases hnc : natChars n.natAbs with _ | ⟨d, ds⟩
    · exact absurd hnc (natChars_ne_nil _)
    · have hd : isDigitChar d = true := by
        have := natChars_all_digits n.natAbs
        rw [hnc] at this
        exact this d (by simp)
      have hread : readDigits 0 (natChars n.natAbs ++ rest) = (n.natAbs, rest) :=
        readDigits_natChars n.natAbs rest hrest
      rw [hnc] at hread
      simp only [List.cons_append] at hread
      simp [parseJsonNumber, List.cons_append, hd, hread]
      rw [abs_of_neg hn, neg_neg]
  · rw [intChars, if_neg hn]
    rcases hnc : natChars n.toNat with _ | ⟨d, ds⟩
    · exact absurd hnc (natChars_ne_nil _)
    · have hd : isDigitChar d = true := by
        have := natChars_all_digits n.toNat
        rw [hnc] at this
        exact this d (by simp)
      have hread : readDigits 0 (natChars n.toNat ++ rest) = (n.toNat, rest) :=
        readDigits_natChars n.toNat rest hrest
      rw [hnc] at hread
      have hdm : d ≠ '-' := (isDigitChar_facts hd).2.2.2.2.2.2.2.1
      simp only [List.cons_append] at hread
      simp [parseJsonNumber, List.cons_append, hdm, hd, hread]
      omega

/-! ### String escape round-trip lemmas -/

/-- `hexVal?` inverts `hexDigitChar` below sixteen. -/
theorem hexVal_hexDigitChar {n : Nat} (h : n < 16) : hexVal? (hexDigitChar n) = some n := by
  have h0 : '0'.toNat = 48 := rfl
  have ha : 'a'.toNat = 97 := rfl
  by_cases h10 : n < 10
  · have hv : ('0'.toNat + n).isValidChar := Or.inl (by omega)
    have ht : (hexDigitChar n).toNat = '0'.toNat + n := by
      simp only [hexDigitChar, if_pos h10]
      exact toNat_ofNat_valid hv
    have hc : 48 ≤ (hexDigitChar n).toNat ∧ (hexDigitChar n).toNat ≤ 57 := by omega
    simp only [hexVal?, if_pos hc, Option.some.injEq]
    omega
  · have hv : ('a'.toNat + (n - 10)).isValidChar := Or.inl (by omega)
    have ht : (hexDigitChar n).toNat = 'a'.toNat + (n - 10) := by
      simp only [hexDigitChar, if_neg h10]
      exact toNat_ofNat_valid hv
    have hc1 : ¬(48 ≤ (hexDigitChar n).toNat ∧ (hexDigitChar n).toNat ≤ 57) := by omega
    have hc2 : 97 ≤ (hexDigitChar n).toNat ∧ (hexDigitChar n).toNat ≤ 102 := by omega
    simp only [hexVal?, if_neg hc1, if_pos hc2, Option.some.injEq]
    omega

/-- Reading back an escaped string body (plus closing quote) yields the
original characters. -/
theorem parseStrChars_escape (cs rest : List Char) :
    parseStrChars (escapeList cs ++ '"' :: rest) = some (cs, rest) := by
  induction cs with
  | nil =>
    rw [escapeList, List.nil_append, parseStrChars.eq_def]
    simp
  | cons c cs ih =>
    simp only [escapeList, List.append_assoc]
    by_cases h1 : c = '"'
    · subst h1
      rw [show escapeChar '"' = ['\\', '"'] from rfl]
      rw [List.cons_append, List.cons_append, List.nil_append, parseStrChars.eq_def]
      simp [ih]
    by_cases h2 : c = '\\'
    · subst h2
      rw [show escapeChar '\\' = ['\\', '\\'] from rfl]
      rw [List.cons_append, List.cons_append, List.nil_append, parseStrChars.eq_def]
      simp [ih]
    by_cases h3 : c = '\x08'
    · subst h3
      rw [show escapeChar '\x08' = ['\\', 'b'] from rfl]
      rw [List.cons_append, List.cons_append, List.nil_append, parseStrChars.eq_def]
      simp [ih]
    by_cases h4 : c = '\x0c'
    · subst h4
      rw [show escapeChar '\x0c' = ['\\', 'f'] from rfl]
      rw [List.cons_append, List.cons_append, List.nil_append, parseStrChars.eq_def]
      simp [ih]
    by_cases h5 : c = '\n'
    · subst h5
      rw [show escapeChar '\n' = ['\\', 'n'] from rfl]
      rw [List.cons_append, List.cons_append, List.nil_append, parseStrChars.eq_def]
      simp [ih]
    by_cases h6 : c = '\r'
    · subst h6
      rw [show escapeChar '\r' = ['\\', 'r'] from rfl]
      rw [List.cons_append, List.cons_append, List.nil_append, parseStrChars.eq_def]
      simp [ih]
    by_cases h7 : c = '\t'
    · subst h7
      rw [show escapeChar '\t' = ['\\', 't'] from rfl]
      rw [List.cons_append, List.cons_append, List.nil_append, parseStrChars.eq_def]
      simp [ih]
    by_cases h8 : c.toNat < 0x20
    · have hchar : escapeChar c =
          ['\\', 'u', '0', '0', hexDigitChar (c.toNat / 16), hexDigitChar (c.toNat % 16)] := by
        simp [escapeChar, h1, h2, h3, h4, h5, h6, h7, h8]
      rw [hchar]
      have hv1 : hexVal? '0' = some 0 := by decide
      have hv2 : hexVal? (hexDigitChar (c.toNat / 16)) = some (c.toNat / 16) :=
        hexVal_hexDigitChar (by omega)
      have hv3 : hexVal? (hexDigitChar (c.toNat % 16)) = some (c.toNat % 16) :=
        hexVal_hexDigitChar (by omega)
      have ht : c.toNat / 16 * 16 + c.toNat % 16 = c.toNat := by omega
      have hsur : ¬(0xD800 ≤ c.toNat ∧ c.toNat ≤ 0xDFFF) := by omega
      rw [List.cons_append, List.cons_append, List.cons_append, List.cons_append,
        List.cons_append, List.cons_append, List.nil_append, parseStrChars.eq_def]
      simp only [hv1, hv2, hv3]
      simp only [Nat.zero_mul, Nat.zero_add, ht]
      simp [hsur, Char.ofNat_toNat, ih]
    · have hchar : escapeChar c = [c] := by
        simp [escapeChar, h1, h2, h3, h4, h5, h6, h7, h8]
      rw [hchar]
      have h8' : ¬c.toNat < 32 := h8
      rw [List.cons_append, List.nil_append, parseStrChars.eq_def]
      simp [h1, h2, h8', ih]

/-! ### Serializer shape lemmas -/

/-- A serialized value is nonempty and starts with a non-whitespace
character that is not `]`, `,` or `}`. -/
theorem serVal_head_facts (j : Json) : ∃ c r, serVal j = c :: r ∧ isJsWs c = false ∧
    c ≠ ']' ∧ c ≠ ',' ∧ c ≠ '}' ∧ c ≠ ':' := by
  cases j with
  | null => exact ⟨'n', _, rfl, by decide, by decide, by decide, by decide, by decide⟩
  | bool b =>
    cases b with
    | true => exact ⟨'t', _, rfl, by decide, by decide, by decide, by decide, by decide⟩
    | false => exact ⟨'f', _, rfl, by decide, by decide, by decide, by decide, by decide⟩
  | num n =>
    by_cases hn : n < 0
    · refine ⟨'-', natChars n.natAbs, ?_, by decide, by decide, by decide, by decide,
        by decide⟩
      simp [serVal, intChars, hn]
    · rcases hnc : natChars n.toNat with _ | ⟨d, ds⟩
      · exact absurd hnc (natChars_ne_nil _)
      · have hd : isDigitChar d = true := by
          have := natChars_all_digits n.toNat
          rw [hnc] at this
          exact this d (by simp)
        obtain ⟨hws, _, _, _, _, _, _, _, h1, h2, h3⟩ := isDigitChar_facts hd
        refine ⟨d, ds, ?_, hws, h1, h2, h3, ?_⟩
        · simp [serVal, intChars, hn, hnc]
        · rintro rfl
          revert hd
          decide
  | str s => exact ⟨'"', _, rfl, by decide, by decide, by decide, by decide, by decide⟩
  | arr items => exact ⟨'[', _, rfl, by decide, by decide, by decide, by decide, by decide⟩
  | obj fields => exact ⟨'{', _, rfl, by decide, by decide, by decide, by decide, by decide⟩

/-- Every parse size is positive. -/
theorem jsize_pos (j : Json) : 1 ≤ jsize j := by
  cases j <;> simp [jsize] <;> omega

mutual

/-- The fuel bound of a value is within twice its serialized length. -/
theorem jsize_le (j : Json) : jsize j ≤ 2 * (serVal j).length := by
  cases j with
  | null => decide
  | bool b => cases b <;> decide
  | num n =>
    have h : serVal (.num n) ≠ [] := by
      obtain ⟨c, r, he, -⟩ := serVal_head_facts (.num n)
      simp [he]
    have : 1 ≤ (serVal (.num n)).length := by
      rcases hs : serVal (.num n) with _ | ⟨c, r⟩
      · exact absurd hs h
      · simp
    calc jsize (.num n) = 1 := by simp [jsize]
    _ ≤ 2 * (serVal (.num n)).length := by omega
  | str s =>
    have : (serVal (.str s)).length = (escapeList s.data).length + 2 := by
      simp [serVal, serStr]
    calc jsize (.str s) = 1 := by simp [jsize]
    _ ≤ 2 * (serVal (.str s)).length := by omega
  | arr items =>
    have h1 := jsizeItems_le items
    have h2 : (serVal (.arr items)).length = (serItems items).length + 2 := by
      simp [serVal]
    calc jsize (.arr items) = 2 + jsizeItems items := by simp [jsize]
    _ ≤ 2 * (serVal (.arr items)).length := by omega
  | obj fields =>
    have h1 := jsizeFields_le fields
    have h2 : (serVal (.obj fields)).length = (serFields fields).length + 2 := by
      simp [serVal]
    calc jsize (.obj fields) = 2 + jsizeFields fields := by simp [jsize]
    _ ≤ 2 * (serVal (.obj fields)).length := by omega

/-- The fuel bound of an item list is within twice its serialized length
plus one. -/
theorem jsizeItems_le (items : List Json) :
    jsizeItems items ≤ 2 * (serItems items).length + 1 := by
  cases items with
  | nil => simp [jsizeItems, serItems]
  | cons x r =>
    have hx := jsize_le x
    cases r with
    | nil =>
      have : serItems [x] = serVal x := by simp [serItems]
      calc jsizeItems [x] = 1 + jsize x + 0 := by simp [jsizeItems]
      _ ≤ 2 * (serItems [x]).length + 1 := by rw [this]; omega
    | cons y r2 =>
      have hr := jsizeItems_le (y :: r2)
      have hlen : (serItems (x :: y :: r2)).length =
          (serVal x).length + 1 + (serItems (y :: r2)).length := by
        simp [serItems]
        omega
      calc jsizeItems (x :: y :: r2) = 1 + jsize x + jsizeItems (y :: r2) := by
            simp [jsizeItems]
      _ ≤ 2 * (serItems (x :: y :: r2)).length + 1 := by rw [hlen]; omega

/-- The fuel bound of a member list is within twice its serialized length
plus one. -/
theorem jsizeFields_le (fields : List (String × Json)) :
    jsizeFields fields ≤ 2 * (serFields fields).length + 1 := by
  cases fields with
  | nil => simp [jsizeFields, serFields]
  | cons f r =>
    obtain ⟨k, v⟩ := f
    have hv := jsize_le v
    cases r with
    | nil =>
      have : (serFields [(k, v)]).length = (serStr k).length + 1 + (serVal v).length := by
        simp [serFields]
        omega
      calc jsizeFields [(k, v)] = 1 + jsize v + 0 := by simp [jsizeFields]
      _ ≤ 2 * (serFields [(k, v)]).length + 1 := by rw [this]; omega
    | cons g r2 =>
      have hr := jsizeFields_le (g :: r2)
      have hlen : (serFields ((k, v) :: g :: r2)).length =
          (serStr k).length + 1 + (serVal v).length + 1 + (serFields (g :: r2)).length := by
        simp [serFields]
        omega
      calc jsizeFields ((k, v) :: g :: r2) = 1 + jsize v + jsizeFields (g :: r2) := by
            simp [jsizeFields]
      _ ≤ 2 * (serFields ((k, v) :: g :: r2)).length + 1 := by rw [hlen]; omega

end


/-! ### Parser consume helpers -/

/-- The head of a serialized integer is a minus sign or a digit. -/
theorem intChars_head (n : Int) : ∃ c r, intChars n = c :: r ∧
    (c = '-' ∨ isDigitChar c = true) := by
  by_cases hn : n < 0
  · exact ⟨'-', natChars n.natAbs, by simp [intChars, hn], Or.inl rfl⟩
  · rcases hnc : natChars n.toNat with _ | ⟨d, ds⟩
    · exact absurd hnc (natChars_ne_nil _)
    · have hd : isDigitChar d = true := by
        have := natChars_all_digits n.toNat
        rw [hnc] at this
        exact this d (by simp)
      exact ⟨d, ds, by simp [intChars, hn, hnc], Or.inr hd⟩

/-- String eta check. -/
theorem string_mk_data (s : String) : (⟨s.data⟩ : String) = s := rfl

/-- `skipWs` is the identity before a serialized item list closed by `]`. -/
theorem skipWs_serItems_close (items : List Json) (rest : List Char) :
    skipWs (serItems items ++ ']' :: rest) = serItems items ++ ']' :: rest := by
  cases items with
  | nil =>
    rw [show serItems [] = ([] : List Char) from rfl, List.nil_append]
    exact skipWs_cons_nonws _ (by decide)
  | cons x r =>
    obtain ⟨c, cr, he, hws, -⟩ := serVal_head_facts x
    have hshape : serItems (x :: r) ++ ']' :: rest =
        c :: (cr ++ (match r with | [] => [] | _ :: _ => ',' :: serItems r) ++ ']' :: rest) := by
      rw [show serItems (x :: r) =
        serVal x ++ (match r with | [] => [] | _ :: _ => ',' :: serItems r) from rfl, he]
      simp
    rw [hshape, skipWs_cons_nonws _ hws]

/-- `skipWs` is the identity before a serialized member list closed by `}`. -/
theorem skipWs_serFields_close (fields : List (String × Json)) (rest : List Char) :
    skipWs (serFields fields ++ '}' :: rest) = serFields fields ++ '}' :: rest := by
  cases fields with
  | nil =>
    rw [show serFields [] = ([] : List Char) from rfl, List.nil_append]
    exact skipWs_cons_nonws _ (by decide)
  | cons f r =>
    obtain ⟨k, v⟩ := f
    have hshape : ∃ t, serFields ((k, v) :: r) ++ '}' :: rest = '"' :: t := by
      rw [show serFields ((k, v) :: r) = serStr k ++ ':' :: serVal v
        ++ (match r with | [] => [] | _ :: _ => ',' :: serFields r) from rfl]
      refine ⟨escapeList k.data ++ '"' :: ':' :: (serVal v ++
        ((match r with | [] => [] | _ :: _ => ',' :: serFields r) ++ '}' :: rest)), ?_⟩
      simp [serStr]
    obtain ⟨t, ht⟩ := hshape
    rw [ht, skipWs_cons_nonws _ (by decide)]


/-- Decomposition of a serialized nonempty item list before its closing
bracket: it starts with a non-whitespace character other than `]`. -/
theorem serItems_close_shape (y : Json) (r2 : List Json) (rest : List Char) :
    ∃ c2 t, serItems (y :: r2) ++ ']' :: rest = c2 :: t ∧ isJsWs c2 = false ∧ c2 ≠ ']' := by
  obtain ⟨c2, cr2, he2, hws2, hne21, -⟩ := serVal_head_facts y
  refine ⟨c2, cr2 ++ ((match r2 with | [] => [] | _ :: _ => ',' :: serItems r2)
    ++ ']' :: rest), ?_, hws2, hne21⟩
  rw [show serItems (y :: r2) =
    serVal y ++ (match r2 with | [] => [] | _ :: _ => ',' :: serItems r2) from rfl, he2]
  simp

/-- Decomposition of a serialized nonempty member list before its closing
brace: it starts with a double quote. -/
theorem serFields_close_shape (k2 : String) (v2 : Json) (r2 : List (String × Json))
    (rest : List Char) :
    ∃ t, serFields ((k2, v2) :: r2) ++ '}' :: rest = '"' :: t := by
  refine ⟨escapeList k2.data ++ '"' :: ':' :: (serVal v2 ++
    ((match r2 with | [] => [] | _ :: _ => ',' :: serFields r2) ++ '}' :: rest)), ?_⟩
  rw [show serFields ((k2, v2) :: r2) = serStr k2 ++ ':' :: serVal v2
    ++ (match r2 with | [] => [] | _ :: _ => ',' :: serFields r2) from rfl]
  simp [serStr]

/-! ### The central consume lemmas: parsing a serialized value -/

mutual

/-- Parsing a serialized value consumes exactly it (given enough fuel and
a suffix that does not continue a numeral). -/
theorem parseValue_consume (j : Json) : ∀ fuel rest, jsize j ≤ fuel → notDigitStart rest →
    parseValue fuel (serVal j ++ rest) = some (j, rest) := by
  intro fuel rest hfuel hrest
  rcases fuel with _ | f
  · exact absurd hfuel (by have := jsize_pos j; omega)
  cases j with
  | null =>
    have hskip : skipWs ('n' :: 'u' :: 'l' :: 'l' :: rest) = 'n' :: 'u' :: 'l' :: 'l' :: rest :=
      skipWs_cons_nonws _ (by decide)
    rw [show serVal .null ++ rest = 'n' :: 'u' :: 'l' :: 'l' :: rest from rfl,
      parseValue.eq_def]
    simp [hskip]
  | bool b =>
    cases b with
    | true =>
      have hskip : skipWs ('t' :: 'r' :: 'u' :: 'e' :: rest) =
          't' :: 'r' :: 'u' :: 'e' :: rest := skipWs_cons_nonws _ (by decide)
      rw [show serVal (.bool true) ++ rest = 't' :: 'r' :: 'u' :: 'e' :: rest from rfl,
        parseValue.eq_def]
      simp [hskip]
    | false =>
      have hskip : skipWs ('f' :: 'a' :: 'l' :: 's' :: 'e' :: rest) =
          'f' :: 'a' :: 'l' :: 's' :: 'e' :: rest := skipWs_cons_nonws _ (by decide)
      rw [show serVal (.bool false) ++ rest = 'f' :: 'a' :: 'l' :: 's' :: 'e' :: rest from rfl,
        parseValue.eq_def]
      simp [hskip]
  | num n =>
    obtain ⟨c, r, he, hc⟩ := intChars_head n
    have hnum := parseJsonNumber_consume n rest hrest
    have hfacts : c ≠ 'n' ∧ c ≠ 't' ∧ c ≠ 'f' ∧ c ≠ '"' ∧ c ≠ '[' ∧ c ≠ '{' ∧
        isJsWs c = false := by
      rcases hc with rfl | hd
      · exact ⟨by decide, by decide, by decide, by decide, by decide, by decide, by decide⟩
      · obtain ⟨hws, h1, h2, h3, h4, h5, h6, -⟩ := isDigitChar_facts hd
        exact ⟨h1, h2, h3, h4, h5, h6, hws⟩
    obtain ⟨hn1, hn2, hn3, hn4, hn5, hn6, hnws⟩ := hfacts
    have hshape : serVal (.num n) ++ rest = c :: (r ++ rest) := by
      rw [show serVal (.num n) = intChars n from rfl, he]
      rfl
    rw [he] at hnum
    simp only [List.cons_append] at hnum
    rw [hshape, parseValue.eq_def]
    simp [skipWs_cons_nonws _ hnws, hn1, hn2, hn3, hn4, hn5, hn6, hnum]
  | str s =>
    have hshape : serVal (.str s) ++ rest = '"' :: (escapeList s.data ++ '"' :: rest) := by
      simp [serVal, serStr]
    rw [hshape, parseValue.eq_def]
    simp [skipWs_cons_nonws _ (by decide : isJsWs '"' = false), parseStrChars_escape]
  | arr items =>
    have hshape : serVal (.arr items) ++ rest = '[' :: (serItems items ++ ']' :: rest) := by
      simp [serVal]
    have hsub := parseArrayItems_consume items f rest (by
      have : jsize (.arr items) = 2 + jsizeItems items := by simp [jsize]
      omega)
    rw [hshape, parseValue.eq_def]
    simp [skipWs_cons_nonws _ (by decide : isJsWs '[' = false),
      skipWs_serItems_close, hsub]
  | obj fields =>
    have hshape : serVal (.obj fields) ++ rest = '{' :: (serFields fields ++ '}' :: rest) := by
      simp [serVal]
    have hsub := parseObjectItems_consume fields f rest (by
      have : jsize (.obj fields) = 2 + jsizeFields fields := by simp [jsize]
      omega)
    rw [hshape, parseValue.eq_def]
    simp [skipWs_cons_nonws _ (by decide : isJsWs '{' = false),
      skipWs_serFields_close, hsub]

/-- Parsing a serialized item list up to the closing bracket yields the
items. -/
theorem parseArrayItems_consume (items : List Json) : ∀ fuel rest,
    jsizeItems items + 1 ≤ fuel →
    parseArrayItems fuel (serItems items ++ ']' :: rest) = some (items, rest) := by
  intro fuel rest hfuel
  rcases fuel with _ | f
  · omega
  cases items with
  | nil =>
    rw [show serItems [] ++ ']' :: rest = ']' :: rest from rfl, parseArrayItems.eq_def]
    simp
  | cons x r =>
    obtain ⟨c, cr, he, hws, hne1, hne2, hne3, hne4⟩ := serVal_head_facts x
    cases r with
    | nil =>
      have hval := parseValue_consume x f (']' :: rest)
        (by simp [jsizeItems] at hfuel; omega)
        (by intro d hd; injection hd with h2; subst h2; decide)
      have hshape : serItems [x] ++ ']' :: rest = c :: (cr ++ ']' :: rest) := by
        rw [show serItems [x] = serVal x ++ [] from rfl, he]
        simp
      rw [he] at hval
      simp only [List.cons_append, List.append_assoc] at hval
      rw [hshape, parseArrayItems.eq_def]
      simp [hne1, hval, skipWs_cons_nonws _ (by decide : isJsWs ']' = false)]
    | cons y r2 =>
      have hjx := jsize_pos x
      have hval := parseValue_consume x f (',' :: serItems (y :: r2) ++ ']' :: rest)
        (by simp [jsizeItems] at hfuel; omega)
        (by intro d hd; injection hd with h2; subst h2; decide)
      have hrec := parseArrayItems_consume (y :: r2) f rest
        (by simp [jsizeItems] at hfuel ⊢; omega)
      obtain ⟨c2, t2, hshape2, hws2, hne21⟩ := serItems_close_shape y r2 rest
      have hshape : serItems (x :: y :: r2) ++ ']' :: rest =
          c :: (cr ++ ',' :: serItems (y :: r2) ++ ']' :: rest) := by
        rw [show serItems (x :: y :: r2) = serVal x ++ ',' :: serItems (y :: r2) from rfl,
          he]
        simp
      rw [he] at hval
      simp only [List.cons_append, List.append_assoc] at hval hrec hshape hshape2
      rw [hshape2] at hval hrec hshape
      rw [hshape, parseArrayItems.eq_def]
      simp [hne1, hval, hrec, skipWs_cons_nonws _ (by decide : isJsWs ',' = false),
        skipWs_cons_nonws _ hws2, hne21]

/-- Parsing a serialized member list up to the closing brace yields the
members. -/
theorem parseObjectItems_consume (fields : List (String × Json)) : ∀ fuel rest,
    jsizeFields fields + 1 ≤ fuel →
    parseObjectItems fuel (serFields fields ++ '}' :: rest) = some (fields, rest) := by
  intro fuel rest hfuel
  rcases fuel with _ | f
  · omega
  cases fields with
  | nil =>
    rw [show serFields [] ++ '}' :: rest = '}' :: rest from rfl, parseObjectItems.eq_def]
    simp
  | cons kv r =>
    obtain ⟨k, v⟩ := kv
    cases r with
    | nil =>
      have hval := parseValue_consume v f ('}' :: rest)
        (by simp [jsizeFields] at hfuel; omega)
        (by intro d hd; injection hd with h2; subst h2; decide)
      have hkey := parseStrChars_escape k.data (':' :: (serVal v ++ '}' :: rest))
      have hshape : serFields [(k, v)] ++ '}' :: rest =
          '"' :: (escapeList k.data ++ '"' :: (':' :: (serVal v ++ '}' :: rest))) := by
        rw [show serFields [(k, v)] = serStr k ++ ':' :: serVal v ++ [] from rfl]
        simp [serStr]
      simp only [List.append_assoc] at hval hkey hshape
      rw [hshape, parseObjectItems.eq_def]
      simp [hkey, hval, skipWs_cons_nonws _ (by decide : isJsWs ':' = false),
        skipWs_cons_nonws _ (by decide : isJsWs '}' = false), string_mk_data]
    | cons kv2 r2 =>
      have hjv := jsize_pos v
      have hval := parseValue_consume v f (',' :: serFields (kv2 :: r2) ++ '}' :: rest)
        (by simp [jsizeFields] at hfuel; omega)
        (by intro d hd; injection hd with h2; subst h2; decide)
      have hrec := parseObjectItems_consume (kv2 :: r2) f rest
        (by simp [jsizeFields] at hfuel ⊢; omega)
      have hkey := parseStrChars_escape k.data
        (':' :: (serVal v ++ ',' :: serFields (kv2 :: r2) ++ '}' :: rest))
      obtain ⟨k2, v2⟩ := kv2
      have hshape : serFields ((k, v) :: (k2, v2) :: r2) ++ '}' :: rest =
          '"' :: (escapeList k.data ++ '"' ::
            (':' :: (serVal v ++ ',' :: serFields ((k2, v2) :: r2) ++ '}' :: rest))) := by
        rw [show serFields ((k, v) :: (k2, v2) :: r2) =
          serStr k ++ ':' :: serVal v ++ ',' :: serFields ((k2, v2) :: r2) from rfl]
        simp [serStr]
      obtain ⟨t, ht⟩ := serFields_close_shape k2 v2 r2 rest
      simp only [List.cons_append, List.append_assoc] at hval hkey hshape ht hrec
      rw [ht] at hval hkey hshape hrec
      rw [hshape, parseObjectItems.eq_def]
      simp [hkey, hval, hrec, skipWs_cons_nonws _ (by decide : isJsWs ':' = false),
        skipWs_cons_nonws _ (by decide : isJsWs ',' = false),
        skipWs_cons_nonws _ (by decide : isJsWs '"' = false), string_mk_data]

end


/-! ### Round trip through the JSON reader -/

/-- Whitespace characters are not digits. -/
theorem isJsWs_not_digit {c : Char} (h : isJsWs c = true) : isDigitChar c = false := by
  simp only [isJsWs, decide_eq_true_eq] at h
  rcases h with rfl | rfl | rfl | rfl | rfl | rfl <;> decide

/-- An all-whitespace suffix cannot continue a numeral. -/
theorem allWs_notDigitStart {cs : List Char} (h : allWs cs) : notDigitStart cs := by
  intro d hd
  cases cs with
  | nil => simp at hd
  | cons c r =>
    rw [List.head?_cons, Option.some.injEq] at hd
    subst hd
    exact isJsWs_not_digit (h _ (by simp))

/-- `skipWs` of an all-whitespace list is empty. -/
theorem skipWs_allWs {cs : List Char} (h : allWs cs) : skipWs cs = [] := by
  have := skipWs_allWs_append h ([] : List Char)
  simpa [skipWs] using this

/-- `parseValue` only looks at its input through `skipWs`. -/
theorem parseValue_congr (fuel : Nat) {a b : List Char} (h : skipWs a = skipWs b) :
    parseValue fuel a = parseValue fuel b := by
  cases fuel with
  | zero => rfl
  | succ f =>
    have key : ∀ cs : List Char, parseValue (f + 1) cs = (match skipWs cs with
      | [] => none
      | c :: rest =>
        if c = 'n' then
          match rest with
          | 'u' :: 'l' :: 'l' :: rest2 => some (.null, rest2)
          | _ => none
        else if c = 't' then
          match rest with
          | 'r' :: 'u' :: 'e' :: rest2 => some (.bool true, rest2)
          | _ => none
        else if c = 'f' then
          match rest with
          | 'a' :: 'l' :: 's' :: 'e' :: rest2 => some (.bool false, rest2)
          | _ => none
        else if c = '"' then
          (parseStrChars rest).map (fun p => (.str ⟨p.1⟩, p.2))
        else if c = '[' then
          (parseArrayItems f (skipWs rest)).map (fun p => (.arr p.1, p.2))
        else if c = '{' then
          (parseObjectItems f (skipWs rest)).map (fun p => (.obj p.1, p.2))
        else
          (parseJsonNumber (c :: rest)).map (fun p => (.num p.1, p.2)) :
        Option (Json × List Char)) := fun _ => rfl
    rw [key a, key b, h]

/-- Round trip with surrounding whitespace: `JSON.parse` recovers a
serialized value embedded in whitespace. -/
theorem jsonParseList_ws (ws1 : List Char) (j : Json) (ws2 : List Char)
    (h1 : allWs ws1) (h2 : allWs ws2) :
    jsonParseList (ws1 ++ serVal j ++ ws2) = some j := by
  have hfuel : jsize j ≤ 2 * (ws1 ++ serVal j ++ ws2).length + 2 := by
    have ha := jsize_le j
    have : (ws1 ++ serVal j ++ ws2).length = ws1.length + (serVal j).length + ws2.length := by
      simp
      omega
    omega
  have hcons := parseValue_consume j (2 * (ws1 ++ serVal j ++ ws2).length + 2) ws2 hfuel
    (allWs_notDigitStart h2)
  have hcongr : parseValue (2 * (ws1 ++ serVal j ++ ws2).length + 2) (ws1 ++ serVal j ++ ws2)
      = parseValue (2 * (ws1 ++ serVal j ++ ws2).length + 2) (serVal j ++ ws2) := by
    apply parseValue_congr
    rw [List.append_assoc]
    exact skipWs_allWs_append h1 _
  unfold jsonParseList
  rw [hcongr, hcons]
  simp [skipWs_allWs h2]

/-- Round trip: `JSON.parse` inverts `JSON.stringify` on every modelled
JSON value. -/
theorem jsonParseList_serVal (j : Json) : jsonParseList (serVal j) = some j := by
  have := jsonParseList_ws [] j [] (by intro c hc; simp at hc) (by intro c hc; simp at hc)
  simpa using this

/-- Round trip on strings. -/
theorem jsonParse_serialize (j : Json) : jsonParse (Json.serialize j) = some j :=
  jsonParseList_serVal j

/-! ### Validation inversion lemmas -/

/-- A verdict accepted by `validateParsedReview` is returned unchanged, is
an object, and has validated status and findings fields. -/
theorem validateParsedReview_ok {j v : Json} (h : validateParsedReview j = .ok v) :
    v = j ∧ (∃ fs, j = .obj fs) ∧ statusFieldOk j = true ∧ findingsFieldOk j = true := by
  unfold validateParsedReview at h
  rcases hb1 : isJsObjectLike j with _ | _ <;> simp only [hb1, Bool.not_true, Bool.not_false] at h
  · exact absurd h (by simp)
  rcases hb2 : statusFieldOk j with _ | _ <;> simp only [hb2, Bool.not_true, Bool.not_false] at h
  · exact absurd h (by simp)
  rcases hb3 : findingsFieldOk j with _ | _ <;> simp only [hb3, Bool.not_true, Bool.not_false] at h
  · exact absurd h (by simp)
  injection h with h4
  subst h4
  refine ⟨rfl, ?_, rfl, rfl⟩
  cases j with
  | obj fs => exact ⟨fs, rfl⟩
  | null => simp [statusFieldOk, jsGetField] at hb2
  | bool b => simp [statusFieldOk, jsGetField] at hb2
  | num n => simp [statusFieldOk, jsGetField] at hb2
  | str s => simp [statusFieldOk, jsGetField] at hb2
  | arr xs => simp [statusFieldOk, jsGetField] at hb2

/-! ### Cleanup-pipeline lemmas on serialized objects -/

/-- `trim` leaves a braced text unchanged. -/
theorem jsTrimList_braced (mid : List Char) :
    jsTrimList ('{' :: mid ++ ['}']) = '{' :: mid ++ ['}'] := by
  unfold jsTrimList
  have h1 : List.dropWhile isJsWs ('{' :: (mid ++ ['}'])) = '{' :: (mid ++ ['}']) := by
    rw [List.dropWhile_cons, if_neg (by simp [show isJsWs '{' = false from rfl])]
  have h2 : ('{' :: (mid ++ ['}'])).reverse = '}' :: (mid.reverse ++ ['{']) := by
    simp
  rw [show ('{' :: mid ++ ['}'] : List Char) = '{' :: (mid ++ ['}']) from rfl, h1, h2,
    List.dropWhile_cons, if_neg (by simp [show isJsWs '}' = false from rfl])]
  simp

/-- The opening-fence strip is the identity unless the text starts with a
backtick. -/
theorem stripFenceOpen_of_head {c : Char} (x : List Char) (hc : c ≠ '`') :
    stripFenceOpen (c :: x) = c :: x := by
  rw [stripFenceOpen.eq_def]
  split
  · rename_i heq
    injection heq with hc2
    exact absurd hc2 hc
  · rfl

/-- The closing-fence strip is the identity unless the text ends with a
backtick. -/
theorem stripFenceClose_of_last {c : Char} {cs y : List Char} (hrev : cs.reverse = c :: y)
    (hc : c ≠ '`') : stripFenceClose cs = cs := by
  rw [stripFenceClose.eq_def, hrev]
  split
  · rename_i heq
    injection heq with hc2
    exact absurd hc2 hc
  · rfl

/-- Position of the first `{` when the preceding text contains none. -/
theorem firstOpenIdx_append {p : List Char} (hp : '{' ∉ p) (x : List Char) :
    firstOpenIdx? (p ++ '{' :: x) = some p.length := by
  unfold firstOpenIdx?
  rw [List.findIdx?_append]
  have h1 : List.findIdx? (fun c => c = '{') p = none := by
    rw [List.findIdx?_eq_none_iff]
    intro c hc
    simp only [decide_eq_false_iff_not]
    rintro rfl
    exact hp hc
  have h2 : List.findIdx? (fun c => c = '{') ('{' :: x) = some 0 := by
    rw [List.findIdx?_cons]
    simp
  rw [h1, h2]
  simp

/-- Position of the last `}` when the following text contains none. -/
theorem lastCloseIdx_append {q : List Char} (hq : '}' ∉ q) (a : List Char) :
    lastCloseIdx? (a ++ '}' :: q) = some a.length := by
  unfold lastCloseIdx?
  have hrev : (a ++ '}' :: q).reverse = q.reverse ++ '}' :: a.reverse := by
    simp
  rw [hrev, List.findIdx?_append]
  have h1 : List.findIdx? (fun c => c = '}') q.reverse = none := by
    rw [List.findIdx?_eq_none_iff]
    intro c hc
    simp only [decide_eq_false_iff_not]
    rintro rfl
    exact hq (List.mem_reverse.mp hc)
  have h2 : List.findIdx? (fun c => c = '}') ('}' :: a.reverse) = some 0 := by
    rw [List.findIdx?_cons]
    simp
  rw [h1, h2]
  simp only [Option.none_or, Option.map_some, Option.some.injEq]
  simp

/-- Brace extraction recovers exactly the braced segment when the text
before it contains no `{` and the text after it contains no `}`. -/
theorem extractBraced_append {p q : List Char} (mid : List Char)
    (hp : '{' ∉ p) (hq : '}' ∉ q) :
    extractBraced (p ++ ('{' :: mid ++ ['}']) ++ q) = '{' :: mid ++ ['}'] := by
  have hshape : p ++ ('{' :: mid ++ ['}']) ++ q = p ++ '{' :: (mid ++ '}' :: q) := by
    simp
  have hshape2 : p ++ ('{' :: mid ++ ['}']) ++ q = (p ++ '{' :: mid) ++ '}' :: q := by
    simp
  have hfirst : firstOpenIdx? (p ++ ('{' :: mid ++ ['}']) ++ q) = some p.length := by
    rw [hshape]
    exact firstOpenIdx_append hp _
  have hlast : lastCloseIdx? (p ++ ('{' :: mid ++ ['}']) ++ q) =
      some (p.length + 1 + mid.length) := by
    rw [hshape2, lastCloseIdx_append hq]
    congr 1
    simp
    omega
  unfold extractBraced
  rw [hfirst, hlast]
  show (if p.length + 1 + mid.length > p.length then
      List.take (p.length + 1 + mid.length + 1 - p.length)
        (List.drop p.length (p ++ ('{' :: mid ++ ['}']) ++ q))
    else p ++ ('{' :: mid ++ ['}']) ++ q) = '{' :: mid ++ ['}']
  rw [if_pos (by omega)]
  have hdrop : List.drop p.length (p ++ ('{' :: mid ++ ['}']) ++ q) =
      '{' :: (mid ++ '}' :: q) := by
    rw [show p ++ ('{' :: mid ++ ['}']) ++ q = p ++ '{' :: (mid ++ '}' :: q) from by simp]
    exact List.drop_left _ _
  rw [hdrop]
  have htake : List.take (mid.length + 2) ('{' :: (mid ++ '}' :: q)) =
      '{' :: mid ++ ['}'] := by
    rw [show ('{' :: (mid ++ '}' :: q) : List Char) = ('{' :: mid ++ ['}']) ++ q from by simp,
      show mid.length + 2 = ('{' :: mid ++ ['}'] : List Char).length + 0 from by simp,
      List.take_append]
    simp
  rw [show p.length + 1 + mid.length + 1 - p.length = mid.length + 2 from by omega]
  exact htake

/-- Brace extraction is the identity on a braced text. -/
theorem extractBraced_braced (mid : List Char) :
    extractBraced ('{' :: mid ++ ['}']) = '{' :: mid ++ ['}'] := by
  have := extractBraced_append (p := []) (q := []) mid (by simp) (by simp)
  simpa using this

/-- A serialized JSON object fed to `parseSubagentOutput` reaches the
validator unchanged: the result is exactly `validateParsedReview` of that
object. -/
theorem parseSubagentOutput_serialize_obj (fs : List (String × Json)) :
    parseSubagentOutput (Json.serialize (.obj fs)) = validateParsedReview (.obj fs) := by
  have hser : serVal (.obj fs) = '{' :: serFields fs ++ ['}'] := rfl
  have hdata : (Json.serialize (.obj fs)).data = '{' :: serFields fs ++ ['}'] := rfl
  have htrim : jsTrim (Json.serialize (.obj fs)) = Json.serialize (.obj fs) := by
    unfold jsTrim
    rw [hdata, jsTrimList_braced]
    rfl
  have hne : Json.serialize (.obj fs) ≠ "" := by
    simp only [ne_eq, String.ext_iff, hdata]
    simp
  have hopen : stripFenceOpen ('{' :: (serFields fs ++ ['}'])) =
      '{' :: (serFields fs ++ ['}']) := stripFenceOpen_of_head _ (by decide)
  have hrev : ('{' :: (serFields fs ++ ['}'])).reverse =
      '}' :: ((serFields fs).reverse ++ ['{']) := by
    simp
  have hclose : stripFenceClose ('{' :: (serFields fs ++ ['}'])) =
      '{' :: (serFields fs ++ ['}']) := stripFenceClose_of_last hrev (by decide)
  have hparse : jsonParseList ('{' :: (serFields fs ++ ['}'])) = some (.obj fs) := by
    have := jsonParseList_serVal (.obj fs)
    rwa [hser] at this
  have hextract : extractAttempt ('{' :: (serFields fs ++ ['}'])) =
      validateParsedReview (.obj fs) := by
    unfold extractAttempt
    rw [show ('{' :: (serFields fs ++ ['}']) : List Char) = '{' :: serFields fs ++ ['}']
      from rfl, extractBraced_braced]
    rw [show ('{' :: serFields fs ++ ['}'] : List Char) = '{' :: (serFields fs ++ ['}'])
      from rfl, hparse]
  unfold parseSubagentOutput
  rw [htrim, if_neg hne, hdata]
  rw [show ('{' :: serFields fs ++ ['}'] : List Char) = '{' :: (serFields fs ++ ['}'])
    from rfl, hopen, hclose]
  simp only [hparse]
  rcases hval : validateParsedReview (.obj fs) with e | v
  · simp [hval, hextract]
  · simp [hval]

/-- The extraction attempt only succeeds through the validator. -/
theorem extractAttempt_ok_inv {cleaned : List Char} {j : Json}
    (h : extractAttempt cleaned = .ok j) :
    (∃ fs, j = .obj fs) ∧ statusFieldOk j = true ∧ findingsFieldOk j = true := by
  unfold extractAttempt at h
  rcases hp : jsonParseList (extractBraced cleaned) with _ | j1
  · rw [hp] at h
    exact absurd h (by simp)
  · rw [hp] at h
    obtain ⟨hvj, hobj, hst, hfd⟩ := validateParsedReview_ok h
    subst hvj
    exact ⟨hobj, hst, hfd⟩

/-- Any verdict `parseSubagentOutput` returns is a JSON object whose
`status` is exactly `pass` or `fail` and whose `findings` is an array. -/
theorem parseSubagentOutput_ok_inv {raw : String} {j : Json}
    (h : parseSubagentOutput raw = .ok j) :
    (∃ fs, j = .obj fs) ∧ statusFieldOk j = true ∧ findingsFieldOk j = true := by
  unfold parseSubagentOutput at h
  by_cases ht : jsTrim raw = ""
  · rw [if_pos ht] at h
    exact absurd h (by simp)
  rw [if_neg ht] at h
  simp only at h
  rcases hp : jsonParseList (stripFenceClose (stripFenceOpen (jsTrim raw).data)) with _ | j0
  · rw [hp] at h
    exact extractAttempt_ok_inv h
  · simp only [hp] at h
    rcases hv : validateParsedReview j0 with e | v
    · simp only [hv] at h
      exact extractAttempt_ok_inv h
    · simp only [hv] at h
      injection h with h2
      subst h2
      obtain ⟨hvj, hobj, hst, hfd⟩ := validateParsedReview_ok hv
      subst hvj
      exact ⟨hobj, hst, hfd⟩

/-- `trim` of an all-whitespace string is empty. -/
theorem jsTrim_allWs {raw : String} (h : allWs raw.data) : jsTrim raw = "" := by
  unfold jsTrim jsTrimList
  have h1 : List.dropWhile isJsWs raw.data = [] := skipWs_allWs h
  rw [h1]
  rfl

/-- C9 counterexample: a verdict with an empty `summary` string is
accepted unchanged by `parseSubagentOutput`, so the non-empty-summary
invariant fails on the parser output. -/
theorem C9_counterexample_empty_summary :
    parseSubagentOutput "\x7b\"status\":\"pass\",\"summary\":\"\",\"findings\":[]\x7d" =
      .ok (.obj [("status", .str "pass"), ("summary", .str ""), ("findings", .arr [])]) ∧
    jsGetField (.obj [("status", .str "pass"), ("summary", .str ""), ("findings", .arr [])])
      "summary" = some (.str "") := by
  constructor
  · rfl
  · rfl

/-- C9 (amended): every verdict `parseSubagentOutput` returns successfully
is a JSON object whose `status` is exactly `pass` or `fail` and whose
`findings` is an array; the `summary` is not validated (it may be empty or
absent). -/
theorem C9_parseSubagentOutput_validated_fields (raw : String) (j : Json)
    (h : parseSubagentOutput raw = .ok j) :
    (∃ fs, j = .obj fs) ∧ statusFieldOk j = true ∧ findingsFieldOk j = true :=
  parseSubagentOutput_ok_inv h

/-- Witness for the amended C9 at a concrete accepted verdict. -/
theorem C9_parseSubagentOutput_validated_fields_witness :
    (∃ fs, (Json.obj [("status", Json.str "fail"), ("summary", Json.str "x"),
        ("findings", Json.arr [])]) = .obj fs) ∧
    statusFieldOk (.obj [("status", .str "fail"), ("summary", .str "x"),
        ("findings", .arr [])]) = true ∧
    findingsFieldOk (.obj [("status", .str "fail"), ("summary", .str "x"),
        ("findings", .arr [])]) = true :=
  C9_parseSubagentOutput_validated_fields
    "\x7b\"status\":\"fail\",\"summary\":\"x\",\"findings\":[]\x7d"
    (.obj [("status", .str "fail"), ("summary", .str "x"), ("findings", .arr [])])
    rfl

/-- C7: `parseSubagentOutput` throws for every empty or whitespace-only
input, for every JSON object whose `status` field is anything other than
exactly `pass` or `fail` (no silent coercion), and for every JSON object
whose `findings` field is not an array. -/
theorem C7_parseSubagentOutput_invalid_inputs :
    (∀ raw : String, allWs raw.data →
      parseSubagentOutput raw = .error "Subagent returned an empty response.") ∧
    (∀ fs : List (String × Json), ∀ st : Json, jsGetField (.obj fs) "status" = some st →
      st ≠ .str "pass" → st ≠ .str "fail" →
      ∃ e, parseSubagentOutput (Json.serialize (.obj fs)) = .error e) ∧
    (∀ fs : List (String × Json), ∀ fj : Json, jsGetField (.obj fs) "findings" = some fj →
      (∀ xs, fj ≠ .arr xs) →
      ∃ e, parseSubagentOutput (Json.serialize (.obj fs)) = .error e) := by
  refine ⟨?_, ?_, ?_⟩
  · intro raw hws
    unfold parseSubagentOutput
    rw [if_pos (jsTrim_allWs hws)]
  · intro fs st hget hnp hnf
    have hst : statusFieldOk (.obj fs) = false := by
      unfold statusFieldOk
      rw [hget]
      cases st with
      | str s =>
        simp only [decide_eq_false_iff_not]
        rintro (rfl | rfl)
        · exact hnp rfl
        · exact hnf rfl
      | null => rfl
      | bool b => rfl
      | num n => rfl
      | arr xs => rfl
      | obj gs => rfl
    rcases hv : validateParsedReview (.obj fs) with e | v
    · exact ⟨e, by rw [parseSubagentOutput_serialize_obj, hv]⟩
    · exact absurd ((validateParsedReview_ok hv).2.2.1) (by simp [hst])
  · intro fs fj hget hna
    have hfd : findingsFieldOk (.obj fs) = false := by
      unfold findingsFieldOk
      rw [hget]
      cases fj with
      | arr xs => exact absurd rfl (hna xs)
      | null => rfl
      | bool b => rfl
      | num n => rfl
      | str s => rfl
      | obj gs => rfl
    rcases hv : validateParsedReview (.obj fs) with e | v
    · exact ⟨e, by rw [parseSubagentOutput_serialize_obj, hv]⟩
    · exact absurd ((validateParsedReview_ok hv).2.2.2) (by simp [hfd])

/-- Witness for C7: the whitespace-only input, a status of `"unknown"`,
and a string-valued `findings` field are all rejected. -/
theorem C7_parseSubagentOutput_invalid_inputs_witness :
    parseSubagentOutput "   " = .error "Subagent returned an empty response." ∧
    (∃ e, parseSubagentOutput (Json.serialize (.obj [("status", .str "unknown"),
      ("summary", .str "x"), ("findings", .arr [])])) = .error e) ∧
    (∃ e, parseSubagentOutput (Json.serialize (.obj [("status", .str "pass"),
      ("summary", .str "x"), ("findings", .str "nope")])) = .error e) := by
  refine ⟨C7_parseSubagentOutput_invalid_inputs.1 "   " (by unfold allWs; decide),
    C7_parseSubagentOutput_invalid_inputs.2.1 _ (.str "unknown") rfl ?_ ?_,
    C7_parseSubagentOutput_invalid_inputs.2.2 _ (.str "nope") rfl ?_⟩
  · intro h
    injection h with h2
    exact absurd h2 (by decide)
  · intro h
    injection h with h2
    exact absurd h2 (by decide)
  · intro xs h
    exact Json.noConfusion h

/-! ### Lemmas for embedded-object parsing (prose around a verdict) -/

/-- One-step unfolding of `parseValue` at positive fuel. -/
theorem parseValue_succ_eq (f : Nat) (cs : List Char) :
    parseValue (f + 1) cs = (match skipWs cs with
      | [] => none
      | c :: rest =>
        if c = 'n' then
          match rest with
          | 'u' :: 'l' :: 'l' :: rest2 => some (.null, rest2)
          | _ => none
        else if c = 't' then
          match rest with
          | 'r' :: 'u' :: 'e' :: rest2 => some (.bool true, rest2)
          | _ => none
        else if c = 'f' then
          match rest with
          | 'a' :: 'l' :: 's' :: 'e' :: rest2 => some (.bool false, rest2)
          | _ => none
        else if c = '"' then
          (parseStrChars rest).map (fun p => (.str ⟨p.1⟩, p.2))
        else if c = '[' then
          (parseArrayItems f (skipWs rest)).map (fun p => (.arr p.1, p.2))
        else if c = '{' then
          (parseObjectItems f (skipWs rest)).map (fun p => (.obj p.1, p.2))
        else
          (parseJsonNumber (c :: rest)).map (fun p => (.num p.1, p.2)) :
      Option (Json × List Char)) :=
  rfl

/-- A parse that produces an object started at an opening brace (after
whitespace). -/
theorem parseValue_obj_head {fuel : Nat} {cs : List Char} {fs : List (String × Json)}
    {rest : List Char} (h : parseValue fuel cs = some (.obj fs, rest)) :
    ∃ t, skipWs cs = '{' :: t := by
  cases fuel with
  | zero => exact absurd h (by simp [parseValue])
  | succ f =>
    rw [parseValue_succ_eq] at h
    rcases hs : skipWs cs with _ | ⟨c, r⟩
    · rw [hs] at h
      exact absurd h (by simp)
    rw [hs] at h
    simp only [] at h
    split_ifs at h with h1 h2 h3 h4 h5 h6
    · exfalso
      split at h <;> simp_all
    · exfalso
      split at h <;> simp_all
    · exfalso
      split at h <;> simp_all
    · exfalso
      rcases hX : parseStrChars r with _ | p <;> rw [hX] at h <;> simp at h
    · exfalso
      rcases hX : parseArrayItems f (skipWs r) with _ | p <;> rw [hX] at h <;> simp at h
    · subst h6
      exact ⟨r, rfl⟩
    · exfalso
      rcases hX : parseJsonNumber (c :: r) with _ | p <;> rw [hX] at h <;> simp at h

/-- Parsing a serialized object consumes exactly it, with no condition on
the following text. -/
theorem parseValue_consume_obj (fs : List (String × Json)) (fuel : Nat) (rest : List Char)
    (hfuel : jsize (.obj fs) ≤ fuel) :
    parseValue fuel (serVal (.obj fs) ++ rest) = some (.obj fs, rest) := by
  rcases fuel with _ | f
  · exact absurd hfuel (by have := jsize_pos (.obj fs); omega)
  have hshape : serVal (.obj fs) ++ rest = '{' :: (serFields fs ++ '}' :: rest) := by
    simp [serVal]
  have hsub := parseObjectItems_consume fs f rest (by
    have : jsize (.obj fs) = 2 + jsizeFields fs := by simp [jsize]
    omega)
  rw [hshape, parseValue_succ_eq, skipWs_cons_nonws _ (by decide : isJsWs '{' = false)]
  have hskip := skipWs_serFields_close fs rest
  simp [hskip, hsub]

/-- Members of a `dropWhile` are members of the list. -/
theorem mem_of_mem_dropWhile {p : Char → Bool} {c : Char} {l : List Char}
    (h : c ∈ l.dropWhile p) : c ∈ l :=
  (List.dropWhile_sublist p).mem h

/-- The head of a nonempty `dropWhile` fails the predicate. -/
theorem dropWhile_head_false {p : Char → Bool} {l : List Char} {c : Char} {t : List Char}
    (h : l.dropWhile p = c :: t) : p c = false := by
  induction l with
  | nil => simp at h
  | cons x xs ih =>
    rw [List.dropWhile_cons] at h
    by_cases hx : p x
    · rw [if_pos hx] at h
      exact ih h
    · rw [if_neg hx] at h
      injection h with h1 h2
      subst h1
      simpa using hx

/-- A non-whitespace text has a non-whitespace head after `skipWs`, drawn
from the text itself. -/
theorem skipWs_head_of_not_allWs {a : List Char} (h : ¬allWs a) :
    ∃ c t, skipWs a = c :: t ∧ c ∈ a ∧ isJsWs c = false := by
  rcases hs : skipWs a with _ | ⟨c, t⟩
  · exact absurd (fun c hc => List.dropWhile_eq_nil_iff.mp hs c hc) h
  · refine ⟨c, t, rfl, ?_, dropWhile_head_false hs⟩
    have hm : c ∈ skipWs a := by rw [hs]; simp
    exact mem_of_mem_dropWhile hm

/-- `trim` around an embedded braced segment trims only the surrounding
text. -/
theorem jsTrimList_embedded (pre mid post : List Char) :
    jsTrimList (pre ++ ('{' :: mid ++ ['}']) ++ post) =
      (pre.dropWhile isJsWs) ++ ('{' :: mid ++ ['}'])
        ++ (post.reverse.dropWhile isJsWs).reverse := by
  unfold jsTrimList
  have h1 : List.dropWhile isJsWs (pre ++ ('{' :: mid ++ ['}']) ++ post) =
      pre.dropWhile isJsWs ++ '{' :: (mid ++ '}' :: post) := by
    rw [show pre ++ ('{' :: mid ++ ['}']) ++ post = pre ++ '{' :: (mid ++ '}' :: post)
      from by simp]
    exact skipWs_append_nonws pre _ (by decide)
  rw [h1]
  have h2 : (pre.dropWhile isJsWs ++ '{' :: (mid ++ '}' :: post)).reverse =
      post.reverse ++ '}' :: (mid.reverse ++ '{' :: (pre.dropWhile isJsWs).reverse) := by
    simp
  rw [h2]
  have h3 : List.dropWhile isJsWs
      (post.reverse ++ '}' :: (mid.reverse ++ '{' :: (pre.dropWhile isJsWs).reverse)) =
      post.reverse.dropWhile isJsWs
        ++ '}' :: (mid.reverse ++ '{' :: (pre.dropWhile isJsWs).reverse) := by
    exact skipWs_append_nonws _ _ (by decide)
  rw [h3]
  simp

/-- The opening-fence strip around an embedded braced segment only removes
characters of the preceding brace-free text. -/
theorem stripFenceOpen_embedded {p1 : List Char} (Y : List Char) (hp : '{' ∉ p1) :
    ∃ p2, stripFenceOpen (p1 ++ '{' :: Y) = p2 ++ '{' :: Y ∧ '{' ∉ p2 := by
  rcases p1 with _ | ⟨c1, _ | ⟨c2, _ | ⟨c3, t⟩⟩⟩
  · exact ⟨[], by rw [List.nil_append, stripFenceOpen_of_head _ (by decide)], by simp⟩
  · refine ⟨[c1], ?_, by simpa using hp⟩
    rw [stripFenceOpen.eq_def]
    split
    · rename_i heq
      injection heq with e1 e2
      injection e2 with e3 e4
      exact absurd e3 (by decide)
    · rfl
  · refine ⟨[c1, c2], ?_, by simpa using hp⟩
    rw [stripFenceOpen.eq_def]
    split
    · rename_i heq
      injection heq with e1 e2
      injection e2 with e3 e4
      injection e4 with e5 e6
      exact absurd e5 (by decide)
    · rfl
  · by_cases hb : c1 = '`' ∧ c2 = '`' ∧ c3 = '`'
    · obtain ⟨rfl, rfl, rfl⟩ := hb
      have hmem : ∀ c ∈ t, c ∈ ('`' :: '`' :: '`' :: t : List Char) := by
        intro c hc
        simp [hc]
      rw [show ('`' :: '`' :: '`' :: t : List Char) ++ '{' :: Y =
        '`' :: '`' :: '`' :: (t ++ '{' :: Y) from by simp]
      rw [stripFenceOpen.eq_def]
      rcases t with _ | ⟨d1, _ | ⟨d2, _ | ⟨d3, u⟩⟩⟩
      · refine ⟨[], ?_, by simp⟩
        simp only [List.nil_append]
        split
        · rename_i heq
          rcases Y with _ | ⟨y1, _ | ⟨y2, _ | ⟨y3, z⟩⟩⟩ <;> simp at heq
          obtain ⟨rfl, -⟩ := heq
          rw [if_neg (by rintro ⟨e1, -⟩; exact absurd e1 (by decide))]
          exact skipWs_cons_nonws _ (by decide)
        · exact skipWs_cons_nonws _ (by decide)
      · refine ⟨List.dropWhile isJsWs [d1], ?_, ?_⟩
        · simp only [List.cons_append, List.nil_append]
          split
          · rename_i heq
            rcases Y with _ | ⟨y1, _ | ⟨y2, z⟩⟩ <;> simp at heq
            obtain ⟨rfl, rfl, -⟩ := heq
            rw [if_neg (by rintro ⟨-, e2, -⟩; exact absurd e2 (by decide))]
            exact skipWs_append_nonws [d1] _ (by decide)
          · exact skipWs_append_nonws [d1] _ (by decide)
        · intro hc
          have hm := mem_of_mem_dropWhile hc
          simp only [List.mem_cons, List.not_mem_nil, or_false] at hm
          apply hp
          subst hm
          simp
      · refine ⟨List.dropWhile isJsWs [d1, d2], ?_, ?_⟩
        · simp only [List.cons_append, List.nil_append]
          split
          · rename_i heq
            rcases Y with _ | ⟨y1, z⟩ <;> simp at heq
            obtain ⟨rfl, rfl, rfl, -⟩ := heq
            rw [if_neg (by rintro ⟨-, -, e3, -⟩; exact absurd e3 (by decide))]
            exact skipWs_append_nonws [d1, d2] _ (by decide)
          · exact skipWs_append_nonws [d1, d2] _ (by decide)
        · intro hc
          have := mem_of_mem_dropWhile hc
          simp only [List.mem_cons, List.not_mem_nil, or_false] at this
          apply hp
          rcases this with rfl | rfl <;> simp
      · rcases u with _ | ⟨d4, u2⟩
        · refine ⟨List.dropWhile isJsWs [d1, d2, d3], ?_, ?_⟩
          · simp only [List.cons_append, List.nil_append]
            rw [if_neg (by rintro ⟨-, -, -, e4⟩; exact absurd e4 (by decide))]
            simpa [skipWs] using skipWs_append_nonws [d1, d2, d3] Y
              (show isJsWs '{' = false by decide)
          · intro hc
            have hm := mem_of_mem_dropWhile hc
            apply hp
            simp only [List.mem_cons, List.not_mem_nil, or_false] at hm ⊢
            tauto
        · by_cases hjson : d1.toLower = 'j' ∧ d2.toLower = 's' ∧ d3.toLower = 'o' ∧
              d4.toLower = 'n'
          · refine ⟨List.dropWhile isJsWs u2, ?_, ?_⟩
            · simp only [List.cons_append]
              rw [if_pos hjson]
              simpa [skipWs] using skipWs_append_nonws u2 Y
                (show isJsWs '{' = false by decide)
            · intro hc
              have hm := mem_of_mem_dropWhile hc
              apply hp
              simp only [List.mem_cons] at hm ⊢
              tauto
          · refine ⟨List.dropWhile isJsWs (d1 :: d2 :: d3 :: d4 :: u2), ?_, ?_⟩
            · simp only [List.cons_append]
              rw [if_neg hjson]
              simpa [skipWs] using skipWs_append_nonws (d1 :: d2 :: d3 :: d4 :: u2) Y
                (show isJsWs '{' = false by decide)
            · intro hc
              have hm := mem_of_mem_dropWhile hc
              apply hp
              simp only [List.mem_cons] at hm ⊢
              tauto
    · refine ⟨c1 :: c2 :: c3 :: t, ?_, hp⟩
      rw [stripFenceOpen.eq_def]
      split
      · rename_i heq
        injection heq with e1 e2
        injection e2 with e3 e4
        injection e4 with e5 e6
        exact absurd ⟨e1, e3, e5⟩ hb
      · rfl

/-- Stripping a closing fence from a text ending in `'}' :: q1` with no `'}'`
in `q1` keeps the part up to the `'}'` and leaves only brace-free text after
it. -/
theorem stripFenceClose_embedded (P : List Char) {q1 : List Char} (hq : '}' ∉ q1) :
    ∃ q2, stripFenceClose (P ++ '}' :: q1) = P ++ '}' :: q2 ∧ '}' ∉ q2 := by
  rcases hr : q1.reverse with _ | ⟨e1, _ | ⟨e2, _ | ⟨e3, w⟩⟩⟩
  · have hq1 : q1 = [] := by
      rw [← List.reverse_reverse q1, hr]; rfl
    subst hq1
    exact ⟨[], stripFenceClose_of_last (c := '}') (y := P.reverse) (by simp)
      (by decide), by simp⟩
  · have hq1 : q1 = [e1] := by
      rw [← List.reverse_reverse q1, hr]; rfl
    subst hq1
    refine ⟨[e1], ?_, hq⟩
    rw [stripFenceClose.eq_def,
      show (P ++ '}' :: [e1]).reverse = e1 :: '}' :: P.reverse from by simp]
    split
    · rename_i heq
      injection heq with f1 f2
      injection f2 with f3 f4
      exact absurd f3 (by decide)
    · rfl
  · have hq1 : q1 = [e2, e1] := by
      rw [← List.reverse_reverse q1, hr]; rfl
    subst hq1
    refine ⟨[e2, e1], ?_, hq⟩
    rw [stripFenceClose.eq_def,
      show (P ++ '}' :: [e2, e1]).reverse = e1 :: e2 :: '}' :: P.reverse from by simp]
    split
    · rename_i heq
      injection heq with f1 f2
      injection f2 with f3 f4
      injection f4 with f5 f6
      exact absurd f5 (by decide)
    · rfl
  · have hq1 : q1 = w.reverse ++ [e3, e2, e1] := by
      rw [← List.reverse_reverse q1, hr]; simp
    subst hq1
    by_cases hb : e1 = '`' ∧ e2 = '`' ∧ e3 = '`'
    · obtain ⟨rfl, rfl, rfl⟩ := hb
      refine ⟨(List.dropWhile isJsWs w).reverse, ?_, ?_⟩
      · rw [stripFenceClose.eq_def,
          show (P ++ '}' :: (w.reverse ++ ['`', '`', '`'])).reverse =
            '`' :: '`' :: '`' :: (w ++ '}' :: P.reverse) from by simp]
        split
        · rename_i heq
          injection heq with f1 f2
          injection f2 with f3 f4
          injection f4 with f5 f6
          rw [← f6]
          have hd : List.dropWhile isJsWs (w ++ '}' :: P.reverse) =
              List.dropWhile isJsWs w ++ '}' :: P.reverse := by
            simpa [skipWs] using skipWs_append_nonws w P.reverse
              (show isJsWs '}' = false by decide)
          rw [hd]
          simp
        · rename_i hne
          exact absurd rfl (hne _)
      · intro hc
        apply hq
        have hm : '}' ∈ List.dropWhile isJsWs w := by simpa using hc
        have hw := mem_of_mem_dropWhile hm
        simp [hw]
    · refine ⟨w.reverse ++ [e3, e2, e1], ?_, hq⟩
      rw [stripFenceClose.eq_def,
        show (P ++ '}' :: (w.reverse ++ [e3, e2, e1])).reverse =
          e1 :: e2 :: e3 :: (w ++ '}' :: P.reverse) from by simp]
      split
      · rename_i heq
        injection heq with f1 f2
        injection f2 with f3 f4
        injection f4 with f5 f6
        exact absurd ⟨f1, f3, f5⟩ hb
      · rfl

/-- `dropWhile` distributes over an append whose left part already exposes a
kept head. -/
theorem skipWs_append_of_cons {a : List Char} {c : Char} {t : List Char}
    (h : List.dropWhile isJsWs a = c :: t) (b : List Char) :
    List.dropWhile isJsWs (a ++ b) = c :: (t ++ b) := by
  induction a with
  | nil => exact absurd h (by simp)
  | cons x xs ih =>
    by_cases hx : isJsWs x
    · rw [List.dropWhile_cons, if_pos hx] at h
      rw [List.cons_append, List.dropWhile_cons, if_pos hx]
      exact ih h
    · rw [List.dropWhile_cons, if_neg hx] at h
      injection h with h1 h2
      subst h1
      subst h2
      rw [List.cons_append, List.dropWhile_cons, if_neg hx]

/-- The verdict object built from a well-formed review always passes the
validator. -/
theorem validateParsedReview_reviewToJson (v : ParsedReview) :
    validateParsedReview (reviewToJson v) = .ok (reviewToJson v) := by
  cases hs : v.status <;>
    simp [validateParsedReview, reviewToJson, isJsObjectLike, statusFieldOk,
      findingsFieldOk, jsGetField, statusStr, hs]

/-- The brace-extraction fallback recovers a serialized object embedded in
text whose prefix is `{`-free and whose suffix is `}`-free, and hands it to
the validator. -/
theorem extractAttempt_embedded (fs : List (String × Json)) {p2 q2 : List Char}
    (hp2 : '{' ∉ p2) (hq2 : '}' ∉ q2) :
    extractAttempt (p2 ++ ('{' :: serFields fs ++ ['}']) ++ q2)
      = validateParsedReview (.obj fs) := by
  unfold extractAttempt
  rw [extractBraced_append (serFields fs) hp2 hq2]
  have hparse : jsonParseList ('{' :: serFields fs ++ ['}']) = some (.obj fs) := by
    have h := jsonParseList_serVal (.obj fs)
    rwa [show serVal (.obj fs) = '{' :: serFields fs ++ ['}'] from rfl] at h
  simp only [hparse]

/-- If the direct `JSON.parse` of a text embedding a serialized object (with
`{`-free prefix) succeeds and the validator accepts the parsed value, that
value is exactly the embedded object. -/
theorem jsonParseList_embedded_obj_det (fs : List (String × Json)) {p2 q2 : List Char}
    (hp2 : '{' ∉ p2) {j0 v : Json}
    (hjp : jsonParseList (p2 ++ ('{' :: serFields fs ++ ['}']) ++ q2) = some j0)
    (hv : validateParsedReview j0 = .ok v) : v = .obj fs := by
  obtain ⟨hvj, ⟨fs0, hobj⟩, -, -⟩ := validateParsedReview_ok hv
  subst hvj
  subst hobj
  have hre : p2 ++ ('{' :: serFields fs ++ ['}']) ++ q2
      = p2 ++ (serVal (.obj fs) ++ q2) := by
    rw [show serVal (.obj fs) = '{' :: serFields fs ++ ['}'] from rfl]
    simp
  rw [hre] at hjp
  unfold jsonParseList at hjp
  rcases hpv : parseValue (2 * (p2 ++ (serVal (.obj fs) ++ q2)).length + 2)
      (p2 ++ (serVal (.obj fs) ++ q2)) with _ | pr
  · rw [hpv] at hjp
    exact absurd hjp (by simp)
  obtain ⟨j1, rest0⟩ := pr
  simp only [hpv] at hjp
  split_ifs at hjp with hrest
  · injection hjp with hj1
    subst hj1
    have hall : allWs p2 := by
      by_contra hna
      obtain ⟨c, t, hst, hcmem, hcws⟩ := skipWs_head_of_not_allWs hna
      obtain ⟨t2, hhead⟩ := parseValue_obj_head hpv
      have hsk : skipWs (p2 ++ (serVal (.obj fs) ++ q2))
          = c :: (t ++ (serVal (.obj fs) ++ q2)) :=
        skipWs_append_of_cons hst _
      rw [hsk] at hhead
      injection hhead with hc1 hc2
      exact hp2 (hc1 ▸ hcmem)
    have hfuel : jsize (.obj fs) ≤ 2 * (p2 ++ (serVal (.obj fs) ++ q2)).length + 2 := by
      have h1 := jsize_le (.obj fs)
      have h2 : (p2 ++ (serVal (.obj fs) ++ q2)).length
          = p2.length + ((serVal (.obj fs)).length + q2.length) := by simp
      omega
    have hcongr : parseValue (2 * (p2 ++ (serVal (.obj fs) ++ q2)).length + 2)
        (p2 ++ (serVal (.obj fs) ++ q2))
        = parseValue (2 * (p2 ++ (serVal (.obj fs) ++ q2)).length + 2)
          (serVal (.obj fs) ++ q2) :=
      parseValue_congr _ (skipWs_allWs_append hall _)
    have hcons := parseValue_consume_obj fs
      (2 * (p2 ++ (serVal (.obj fs) ++ q2)).length + 2) q2 hfuel
    rw [hcongr, hcons] at hpv
    injection hpv with hpv1
    injection hpv1 with ha hb
    exact ha.symm

/-- `parseSubagentOutput` recovers a validator-accepted serialized object
embedded in text whose prefix contains no `{` and whose suffix contains no
`}`; both fence stripping and brace extraction preserve this shape. -/
theorem parseSubagentOutput_embedded_obj (fs : List (String × Json))
    (pre post : List Char) (hpre : '{' ∉ pre) (hpost : '}' ∉ post)
    (hok : validateParsedReview (.obj fs) = .ok (.obj fs)) :
    parseSubagentOutput ⟨pre ++ serVal (.obj fs) ++ post⟩ = .ok (.obj fs) := by
  have hpre1 : '{' ∉ pre.dropWhile isJsWs := fun hc => hpre (mem_of_mem_dropWhile hc)
  have hpost1 : '}' ∉ (List.dropWhile isJsWs post.reverse).reverse := by
    intro hc
    exact hpost (List.mem_reverse.mp (mem_of_mem_dropWhile (List.mem_reverse.mp hc)))
  have htl : jsTrimList (pre ++ serVal (.obj fs) ++ post)
      = pre.dropWhile isJsWs ++ ('{' :: serFields fs ++ ['}'])
        ++ (List.dropWhile isJsWs post.reverse).reverse := by
    rw [show serVal (.obj fs) = '{' :: serFields fs ++ ['}'] from rfl]
    exact jsTrimList_embedded pre (serFields fs) post
  have htrim : jsTrim ⟨pre ++ serVal (.obj fs) ++ post⟩
      = ⟨pre.dropWhile isJsWs ++ ('{' :: serFields fs ++ ['}'])
        ++ (List.dropWhile isJsWs post.reverse).reverse⟩ := by
    unfold jsTrim
    exact congrArg String.mk htl
  have hne : (⟨pre.dropWhile isJsWs ++ ('{' :: serFields fs ++ ['}'])
      ++ (List.dropWhile isJsWs post.reverse).reverse⟩ : String) ≠ "" := by
    simp only [ne_eq, String.ext_iff]
    simp
  obtain ⟨p2, hopen, hp2⟩ :=
    stripFenceOpen_embedded (serFields fs ++ '}'
      :: (List.dropWhile isJsWs post.reverse).reverse) hpre1
  obtain ⟨q2, hclose, hq2⟩ :=
    stripFenceClose_embedded (p2 ++ '{' :: serFields fs) hpost1
  have hshape1 : pre.dropWhile isJsWs ++ ('{' :: serFields fs ++ ['}'])
        ++ (List.dropWhile isJsWs post.reverse).reverse
      = pre.dropWhile isJsWs ++ '{'
        :: (serFields fs ++ '}' :: (List.dropWhile isJsWs post.reverse).reverse) := by
    simp
  have hshape2 : p2 ++ '{'
        :: (serFields fs ++ '}' :: (List.dropWhile isJsWs post.reverse).reverse)
      = (p2 ++ '{' :: serFields fs) ++ '}'
        :: (List.dropWhile isJsWs post.reverse).reverse := by
    simp
  have hshape3 : (p2 ++ '{' :: serFields fs) ++ '}' :: q2
      = p2 ++ ('{' :: serFields fs ++ ['}']) ++ q2 := by
    simp
  unfold parseSubagentOutput
  rw [htrim, if_neg hne]
  rw [show (⟨pre.dropWhile isJsWs ++ ('{' :: serFields fs ++ ['}'])
      ++ (List.dropWhile isJsWs post.reverse).reverse⟩ : String).data
    = pre.dropWhile isJsWs ++ ('{' :: serFields fs ++ ['}'])
      ++ (List.dropWhile isJsWs post.reverse).reverse from rfl]
  rw [hshape1, hopen, hshape2, hclose, hshape3]
  rcases hjp : jsonParseList (p2 ++ ('{' :: serFields fs ++ ['}']) ++ q2) with _ | j0
  · simp only [hjp]
    rw [extractAttempt_embedded fs hp2 hq2, hok]
  · simp only [hjp]
    rcases hv : validateParsedReview j0 with e | v
    · simp only [hv]
      rw [extractAttempt_embedded fs hp2 hq2, hok]
    · simp only [hv]
      rw [jsonParseList_embedded_obj_det fs hp2 hjp hv]

/-- C6 counterexample: the prose `"note: \x7bdraft\x7d\n"` does not itself
parse as JSON, yet embedding a serialized verdict after it makes
`parseSubagentOutput` throw a `SyntaxError` instead of returning the
verdict, because the brace extraction starts at the prose's own `\x7b`;
the same serialized verdict alone round-trips. -/
theorem C6_counterexample_prose_brace :
    parseSubagentOutput ("note: {draft}\n"
        ++ serializeReview { status := .pass, summary := "ok", findings := [] })
      = .error "SyntaxError"
    ∧ jsonParse "note: {draft}\n" = none
    ∧ parseSubagentOutput
        (serializeReview { status := .pass, summary := "ok", findings := [] })
      = .ok (reviewToJson { status := .pass, summary := "ok", findings := [] }) :=
  ⟨rfl, rfl, rfl⟩

/-- C6 (corrected): for every well-formed verdict value, `parseSubagentOutput`
recovers the verdict from its JSON serialization embedded in surrounding
text, provided the text before the serialization contains no `\x7b` and the
text after it contains no `\x7d`.  This covers the plain serialization
(empty surroundings), a fenced code block (the opening fence and optional
`json` tag contain no `\x7b`, the closing fence no `\x7d`), and brace-free
prose; prose whose leading part contains a `\x7b` of its own can break the
extraction, so the original unconditional prose claim is narrowed. -/
theorem C6_parse_serialize_roundtrip_embedded (v : ParsedReview) (pre post : String)
    (hpre : '{' ∉ pre.data) (hpost : '}' ∉ post.data) :
    parseSubagentOutput (pre ++ serializeReview v ++ post) = .ok (reviewToJson v) := by
  have hok := validateParsedReview_reviewToJson v
  have hobj : reviewToJson v = .obj [("status", .str (statusStr v.status)),
      ("summary", .str v.summary), ("findings", .arr (v.findings.map findingToJson))] := rfl
  have hstr : (pre ++ serializeReview v ++ post : String)
      = ⟨pre.data ++ serVal (reviewToJson v) ++ post.data⟩ := by
    apply String.ext
    simp [serializeReview, Json.serialize]
  rw [hstr]
  rw [hobj] at hok ⊢
  exact parseSubagentOutput_embedded_obj _ pre.data post.data hpre hpost hok

/-- Witness for C6: a fail verdict with one finding embedded in brace-free
prose round-trips through `parseSubagentOutput`. -/
theorem C6_parse_serialize_roundtrip_embedded_witness :
    parseSubagentOutput ("Here is the review:\n"
        ++ serializeReview (ParsedReview.mk .fail "Two issues found."
            [Finding.mk "major" "Bug" "Off by one" (some "a.ts") (some 7)])
        ++ "\nDone.")
      = .ok (reviewToJson (ParsedReview.mk .fail "Two issues found."
          [Finding.mk "major" "Bug" "Off by one" (some "a.ts") (some 7)])) :=
  C6_parse_serialize_roundtrip_embedded _ "Here is the review:\n" "\nDone."
    (by decide) (by decide)

end AiDiffReview
